import Mathlib

/-!
Shallow embedding of `oc_validator`'s table reader (`oc_validator/table_reader.py`)
and GUI error-mapping core (`oc_validator/interface/gui.py`).

Conventions of the embedding:
* Python strings are `String`; `str.split(sep)` is `pySplit` and
  `str.strip()` is `pyStrip`, structural re-implementations with the same
  behaviour (so that concrete runs reduce inside the kernel).
* Python dicts with a fixed column schema (`csv.DictReader` rows) are structures
  with one `Option String` field per column (`none` = key absent,
  `some ""` = key present with empty value), and dicts built by insertion
  (`position.table`, row model `fields`, the error catalog) are association
  lists in insertion order.
* Fallible code (list indexing, dict key lookup, `set.pop` on an empty set)
  returns `Except Err _`; `Err.indexError` / `Err.keyError` are Python's
  `IndexError` / `KeyError`.  `Err.mappingError` is the coordinate-carrying
  mapping error described by the documentation; the code never raises it.
* The report's row keys (`"<rowIndex:int as string>"`) are carried as `Nat`
  (canonical decimal form, as produced by `int(...)` in the source).
* Randomness for color generation is injected as a stream of already-converted
  RGB byte triples (the values `int(r*255), int(g*255), int(b*255)`); the
  float HSV-to-RGB conversion itself is outside the embedding.
-/

namespace OCV

/-! ### Decimal printing (Python `str(int)` on naturals) -/

/-- Decimal digit character, `0 ≤ n ≤ 9`. -/
def digitCh (n : Nat) : Char :=
  match n with
  | 0 => '0' | 1 => '1' | 2 => '2' | 3 => '3' | 4 => '4'
  | 5 => '5' | 6 => '6' | 7 => '7' | 8 => '8' | _ => '9'

/-- Decimal digits of `n`, most significant first (well-founded form, used
only in proofs). -/
def natDigitsW (n : Nat) : List Char :=
  if n < 10 then [digitCh n]
  else natDigitsW (n / 10) ++ [digitCh (n % 10)]
  decreasing_by exact Nat.div_lt_self (by omega) (by omega)

/-- Decimal digits with explicit fuel (structural, so that concrete instances
evaluate inside the kernel); `fuel` decimal digits suffice for `n < 10 ^ fuel`. -/
def natDigitsF : Nat → Nat → List Char
  | 0, _ => []
  | fuel + 1, n =>
    if n < 10 then [digitCh n]
    else natDigitsF fuel (n / 10) ++ [digitCh (n % 10)]

/-- Python `str(n)` for a natural number. -/
def natStr (n : Nat) : String := String.mk (natDigitsF (n + 1) n)

/-! ### Item extraction (`AgentItem._parse` / `VenueInfo._parse`)

The source extracts identifiers with
`finditer(r'((?:s1|s2|...):\S+)(?=\s|\])', raw)`: left-to-right,
non-overlapping matches; `\S+` is greedy and backtracks only as far as the
lookahead requires.  `scanIds` implements exactly that engine behaviour for
this regex shape. -/

/-- Python regex `\s` on the inputs in play. -/
def isWS (c : Char) : Bool :=
  c = ' ' || c = '\t' || c = '\n' || c = '\r' || c = '\x0b' || c = '\x0c'

/-- Greatest index of `c` in `l`, if any. -/
def lastIdxOf (c : Char) : List Char → Option Nat
  | [] => none
  | x :: xs =>
    match lastIdxOf c xs with
    | some p => some (p + 1)
    | none => if x = c then some 0 else none

/-- Attempt a regex match anchored at the start of `cs`; returns the length of
the matched identifier.  The alternation over schemes is ordered (as in the
source pattern); after `scheme:` the greedy `\S+` takes the maximal
non-whitespace run, backing off — when the run reaches the end of the string —
to the greatest length whose following character is `']'`. -/
def tryMatch (schemes : List String) (cs : List Char) : Option Nat :=
  match schemes.find? (fun s => List.isPrefixOf (s.data ++ [':']) cs) with
  | none => none
  | some s =>
    let pre := s.data ++ [':']
    let rest := cs.drop pre.length
    let run := rest.takeWhile (fun c => !isWS c)
    if run.isEmpty then none
    else if run.length < rest.length then
      -- a character follows the maximal run, necessarily whitespace
      some (pre.length + run.length)
    else
      match lastIdxOf ']' run with
      | some p => if 1 ≤ p then some (pre.length + p) else none
      | none => none

/-- `re.finditer` over the whole character list: try a match at each position,
emit it and resume after its end, else advance one character.  Structural on
an explicit fuel; every step consumes at least one character, so
`cs.length` fuel is exact. -/
def scanIdsF (schemes : List String) : Nat → List Char → List (List Char)
  | 0, _ => []
  | fuel + 1, cs =>
    match cs with
    | [] => []
    | c :: rest =>
      match tryMatch schemes (c :: rest) with
      | some len => (c :: rest).take len :: scanIdsF schemes fuel ((c :: rest).drop len)
      | none => scanIdsF schemes fuel rest

def scanIds (schemes : List String) (cs : List Char) : List (List Char) :=
  scanIdsF schemes cs.length cs

/-- Scheme set of the agent-identifier regex in `AgentItem._parse`. -/
def agentSchemes : List String := ["crossref", "orcid", "viaf", "wikidata", "ror", "omid"]

/-- Scheme set of the venue-identifier regex in `VenueInfo._parse`. -/
def venueSchemes : List String :=
  ["doi", "issn", "isbn", "url", "wikidata", "wikipedia", "openalex", "omid", "jid", "arxiv"]

/-- The list of identifier substrings the regex scan extracts from `raw`. -/
def extractIds (schemes : List String) (raw : String) : List String :=
  (scanIds schemes raw.data).map String.mk

/-- Python `str.strip()` (on the whitespace in play): drop leading and
trailing whitespace. -/
def pyStrip (s : String) : String :=
  String.mk (((s.data.dropWhile isWS).reverse.dropWhile isWS).reverse)

/-- Python `str.split(sep)` for a non-empty separator: non-overlapping,
left-to-right; adjacent separators yield empty pieces.  Structural on a fuel
bounded by the string length. -/
def pySplitAux (sep : List Char) : Nat → List Char → List Char → List (List Char)
  | _, acc, [] => [acc.reverse]
  | 0, acc, cs => [acc.reverse ++ cs]
  | fuel + 1, acc, c :: rest =>
    if sep.isPrefixOf (c :: rest) then
      acc.reverse :: pySplitAux sep fuel [] ((c :: rest).drop sep.length)
    else
      pySplitAux sep fuel (c :: acc) rest

def pySplit (s sep : String) : List String :=
  (pySplitAux sep.data (s.data.length + 1) [] s.data).map String.mk

/-- Name part: everything before the first `'['` (whole string if none),
stripped — `AgentItem._parse` / `VenueInfo._parse`. -/
def parseNamePart (raw : String) : String :=
  match raw.data.findIdx? (fun c => c = '[') with
  | some p => pyStrip (String.mk (raw.data.take p))
  | none => pyStrip raw

structure AgentItem where
  raw : String
  name : String
  ids : List String
  deriving Repr, DecidableEq

/-- `AgentItem.__init__` (with `str(agent)` returning `raw`). -/
def mkAgentItem (raw : String) : AgentItem :=
  ⟨raw, parseNamePart raw, extractIds agentSchemes raw⟩

structure VenueInfo where
  raw : String
  name : String
  ids : List String
  deriving Repr, DecidableEq

/-- `VenueInfo.__init__`. -/
def mkVenueInfo (raw : String) : VenueInfo :=
  ⟨raw, parseNamePart raw, extractIds venueSchemes raw⟩

/-! ### Row parsing (`MetadataRow`, `CitationsRow`) -/

/-- A raw metadata CSV row as handed over by `csv.DictReader`:
`none` = column absent, `some s` = column present with value `s`. -/
structure RawMetaRow where
  id : Option String := none
  title : Option String := none
  author : Option String := none
  pub_date : Option String := none
  venue : Option String := none
  volume : Option String := none
  issue : Option String := none
  page : Option String := none
  type : Option String := none
  publisher : Option String := none
  editor : Option String := none
  deriving Repr, DecidableEq

structure RawCitsRow where
  citing_id : Option String := none
  citing_publication_date : Option String := none
  cited_id : Option String := none
  cited_publication_date : Option String := none
  deriving Repr, DecidableEq

/-- `_parse_id_field`: `if not value: []` else split on a single space. -/
def parse_id_field (value : String) : List String :=
  if value = "" then [] else pySplit value " "

/-- `_parse_agent_field`: `if not value: None` else split on `"; "` into agents. -/
def parse_agent_field (value : Option String) : Option (List AgentItem) :=
  match value with
  | none => none
  | some s => if s = "" then none else some ((pySplit s "; ").map mkAgentItem)

/-- `_parse_venue_field`. -/
def parse_venue_field (value : Option String) : Option VenueInfo :=
  match value with
  | none => none
  | some s => if s = "" then none else some (mkVenueInfo s)

structure MetadataRow where
  id : List String
  title : Option String
  author : Option (List AgentItem)
  pub_date : Option String
  venue : Option VenueInfo
  volume : Option String
  issue : Option String
  page : Option String
  type : Option String
  publisher : Option (List AgentItem)
  editor : Option (List AgentItem)
  deriving Repr, DecidableEq

/-- `MetadataRow.__init__` (note: scalar fields are plain `raw_row.get(...)`,
with no emptiness check). -/
def mkMetadataRow (raw : RawMetaRow) : MetadataRow where
  id := parse_id_field (raw.id.getD "")
  title := raw.title
  author := parse_agent_field raw.author
  pub_date := raw.pub_date
  venue := parse_venue_field raw.venue
  volume := raw.volume
  issue := raw.issue
  page := raw.page
  type := raw.type
  publisher := parse_agent_field raw.publisher
  editor := parse_agent_field raw.editor

structure CitationsRow where
  citing_id : List String
  citing_publication_date : Option String
  cited_id : List String
  cited_publication_date : Option String
  deriving Repr, DecidableEq

/-- `CitationsRow.__init__`. -/
def mkCitationsRow (raw : RawCitsRow) : CitationsRow where
  citing_id := parse_id_field (raw.citing_id.getD "")
  citing_publication_date := raw.citing_publication_date
  cited_id := parse_id_field (raw.cited_id.getD "")
  cited_publication_date := raw.cited_publication_date

/-- `[x] if x is not None else []` for a scalar field. -/
def optList (v : Option String) : List String :=
  match v with
  | none => []
  | some s => [s]

/-- `[str(agent) for agent in agents] if agents is not None else []`. -/
def agentsRaw (v : Option (List AgentItem)) : List String :=
  match v with
  | none => []
  | some l => l.map (fun a => a.raw)

/-- `[str(venue)] if venue is not None else []`. -/
def venueRaw (v : Option VenueInfo) : List String :=
  match v with
  | none => []
  | some vi => [vi.raw]

/-- `MetadataRow.flat_serialise`, a dict in insertion order. -/
def MetadataRow.flat_serialise (r : MetadataRow) : List (String × List String) :=
  [("id", r.id),
   ("title", optList r.title),
   ("author", agentsRaw r.author),
   ("pub_date", optList r.pub_date),
   ("venue", venueRaw r.venue),
   ("volume", optList r.volume),
   ("issue", optList r.issue),
   ("page", optList r.page),
   ("type", optList r.type),
   ("publisher", agentsRaw r.publisher),
   ("editor", agentsRaw r.editor)]

/-- `CitationsRow.flat_serialise`. -/
def CitationsRow.flat_serialise (r : CitationsRow) : List (String × List String) :=
  [("citing_id", r.citing_id),
   ("citing_publication_date", optList r.citing_publication_date),
   ("cited_id", r.cited_id),
   ("cited_publication_date", optList r.cited_publication_date)]

/-- `Union[MetadataRow, CitationsRow]`. -/
inductive Row where
  | meta (r : MetadataRow)
  | cits (r : CitationsRow)
  deriving Repr, DecidableEq

/-- Dynamic dispatch of `row.flat_serialise()`. -/
def Row.flat_serialise : Row → List (String × List String)
  | .meta r => r.flat_serialise
  | .cits r => r.flat_serialise

/-! ### Row modeling (`gui.model_row_default`) -/

/-- One entry of a field's item list in the row model. -/
structure ItemRecord where
  raw : String
  item_id : String
  issues : List String
  deriving Repr, DecidableEq

/-- The modelled row dictionary. -/
structure RowModel where
  contains_issue : Bool
  row_idx : Nat
  fields : List (String × List ItemRecord)
  deriving Repr, DecidableEq

/-- Python f-string `f"{r}-{label}-{tag}"`. -/
def itemIdStr (r : Nat) (label tag : String) : String :=
  natStr r ++ "-" ++ label ++ "-" ++ tag

/-- Python `enumerate`, starting at `i`. -/
def enumFrom {α : Type} (i : Nat) : List α → List (Nat × α)
  | [] => []
  | v :: vs => (i, v) :: enumFrom (i + 1) vs

/-- The item list built for one field by `model_row_default`. -/
def model_field (r : Nat) (label : String) (vals : List String) : List ItemRecord :=
  match vals with
  | [] => [⟨"", itemIdStr r label "empty", []⟩]
  | _ => (enumFrom 0 vals).map (fun p => ⟨p.2, itemIdStr r label (natStr p.1), []⟩)

/-- `gui.model_row_default`. -/
def model_row_default (row : Row) (row_idx : Nat) : RowModel where
  contains_issue := false
  row_idx := row_idx
  fields := row.flat_serialise.map (fun p => (p.1, model_field row_idx p.1 p.2))

/-! ### Error enrichment (`gui.enrich_row`, `gui.map_errors_to_data`) -/

/-- Exceptions the mapping code can surface.  `mappingError` is the
coordinate-carrying error described by the documentation; the source never
constructs it. -/
inductive Err where
  | indexError
  | keyError
  | mappingError (rowIndex : Nat) (fieldLabel : String) (itemIndex : Nat)
  deriving Repr, DecidableEq

def Err.isMapping : Err → Bool
  | .mappingError _ _ _ => true
  | _ => false

/-- One error object of the validation report.  `table` is
`error_obj['position']['table']` with row keys already as integers and
`none` standing for JSON `null` item indexes. -/
structure ErrorObject where
  message : String
  error_label : String
  error_type : String
  table : List (Nat × List (String × Option (List Nat)))
  deriving Repr, DecidableEq

/-- Exception-propagating left fold (sequential statement execution). -/
def foldE (f : β → α → Except Err β) : β → List α → Except Err β
  | b, [] => .ok b
  | b, a :: l =>
    match f b a with
    | .ok b' => foldE f b' l
    | .error e => .error e

/-- Dict lookup (`d[key]` sans exception). -/
def lookupF {β : Type} : List (String × β) → String → Option β
  | [], _ => none
  | (k, v) :: rest, label => if k = label then some v else lookupF rest label

/-- Replace the value stored under `label` (dict item assignment). -/
def updateF {β : Type} : List (String × β) → String → β → List (String × β)
  | [], _, _ => []
  | (k, v) :: rest, label, new =>
    if k = label then (k, new) :: rest else (k, v) :: updateF rest label new

/-- `if err_id not in data_item['issues']: data_item['issues'].append(err_id)`. -/
def addIssue (it : ItemRecord) (err_id : String) : ItemRecord :=
  if err_id ∈ it.issues then it else { it with issues := it.issues ++ [err_id] }

/-- One iteration of the innermost loop of `enrich_row`: mutate
`fields[field_label][item_idx]`.  A missing label is a `KeyError`, an
out-of-range index an `IndexError`. -/
def applyIdx (fs : List (String × List ItemRecord)) (label : String) (idx : Nat)
    (err_id : String) : Except Err (List (String × List ItemRecord)) :=
  match lookupF fs label with
  | none => .error .keyError
  | some items =>
    if h : idx < items.length then
      .ok (updateF fs label (items.set idx (addIssue (items.get ⟨idx, h⟩) err_id)))
    else .error .indexError

/-- `items_indexes if items_indexes is not None else [0]`. -/
def idxList (v : Option (List Nat)) : List Nat :=
  match v with
  | none => [0]
  | some l => l

/-- `gui.enrich_row`.  Note that the source iterates **every**
`(row_idx, field_info)` pair of the error's position table, ignoring the row
key, and applies all of them to the single row model it was handed. -/
def enrich_row (m : RowModel) (e : ErrorObject) (err_id : String) : Except Err RowModel :=
  match foldE (fun fs rowEntry =>
      foldE (fun fs fieldEntry =>
          foldE (fun fs idx => applyIdx fs fieldEntry.1 idx err_id)
            fs (idxList fieldEntry.2))
        fs rowEntry.2)
    m.fields e.table with
  | .error e => .error e
  | .ok fs => .ok { m with contains_issue := true, fields := fs }

/-- One entry of `out_errors`. -/
structure CatalogEntry where
  message : String
  label : String
  level : String
  color : String
  deriving Repr, DecidableEq

/-- `'cits' if isinstance(data[0], CitationsRow) else 'meta'`. -/
def tableType : Row → String
  | .cits _ => "cits"
  | .meta _ => "meta"

/-- The per-error loop body of `map_errors_to_data`: pop a color, record the
catalog entry, then `out_data[i] = enrich_row(out_data[i], ...)` for each row
key `i` of the error's position table (an out-of-range `i` is an
`IndexError`; popping from an exhausted color set is a `KeyError`). -/
def processError (st : List RowModel × List (String × CatalogEntry) × List String)
    (tt : String) (idx : Nat) (e : ErrorObject) :
    Except Err (List RowModel × List (String × CatalogEntry) × List String) :=
  match st.2.2 with
  | [] => .error .keyError
  | c :: cs =>
    let err_id := tt ++ "-" ++ natStr idx
    let entry : CatalogEntry := ⟨e.message, e.error_label, e.error_type, c⟩
    match foldE (fun out rowEntry =>
        if h : rowEntry.1 < out.length then
          match enrich_row (out.get ⟨rowEntry.1, h⟩) e err_id with
          | .ok m' => .ok (out.set rowEntry.1 m')
          | .error er => .error er
        else .error .indexError)
      st.1 e.table with
    | .error er => .error er
    | .ok out => .ok (out, st.2.1 ++ [(err_id, entry)], cs)

/-- `gui.map_errors_to_data`.  `colors` is the color set allocated by
`generate_error_colors(len(report))`, listed in the order `set.pop` yields
its elements. -/
def map_errors_to_data (colors : List String) (data : List Row)
    (report : List ErrorObject) :
    Except Err (List RowModel × List (String × CatalogEntry)) :=
  let out_data := (enumFrom 0 data).map (fun p => model_row_default p.2 p.1)
  match data with
  | [] => .error .indexError
  | r0 :: _ =>
    match foldE (fun st p => processError st (tableType r0) p.1 p.2)
        (out_data, [], colors) (enumFrom 0 report) with
    | .error er => .error er
    | .ok st => .ok (st.1, st.2.1)

/-! ### Color generation (`gui.generate_error_colors`) -/

/-- Lowercase hex digit of `n % 16`. -/
def hexDigit (n : Nat) : Char :=
  match n % 16 with
  | 0 => '0' | 1 => '1' | 2 => '2' | 3 => '3' | 4 => '4' | 5 => '5' | 6 => '6'
  | 7 => '7' | 8 => '8' | 9 => '9' | 10 => 'a' | 11 => 'b' | 12 => 'c'
  | 13 => 'd' | 14 => 'e' | _ => 'f'

/-- Python `'{:02x}'.format(v)` for `v < 256`. -/
def toHex2 (v : Nat) : String :=
  String.mk [hexDigit (v / 16), hexDigit v]

/-- `'#{:02x}{:02x}{:02x}'.format(r, g, b)`. -/
def hexColor (s : Nat × Nat × Nat) : String :=
  "#" ++ toHex2 s.1 ++ toHex2 s.2.1 ++ toHex2 s.2.2

/-- The `while len(colors) < n` loop, with the random byte triples injected as
`samples`; the accumulated Python `set` is kept as its insertion-ordered,
duplicate-free list of elements.  `none` models the non-terminating run in
which the sample stream is exhausted before `n` distinct colors appear. -/
def genLoop (n : Nat) : List (Nat × Nat × Nat) → List String → Option (List String)
  | samples, acc =>
    if n ≤ acc.length then some acc
    else
      match samples with
      | [] => none
      | s :: rest =>
        genLoop n rest (if hexColor s ∈ acc then acc else acc ++ [hexColor s])

/-- `gui.generate_error_colors`. -/
def generate_error_colors (n : Nat) (samples : List (Nat × Nat × Nat)) :
    Option (List String) :=
  genLoop n samples []

/-! ### Flattening the three nested loops of `enrich_row` -/

/-- All `(fieldLabel, itemIndex)` coordinates touched by the inner loops of
`enrich_row`, in execution order. -/
def coordsOf (table : List (Nat × List (String × Option (List Nat)))) :
    List (String × Nat) :=
  table.flatMap (fun re => re.2.flatMap (fun fe => (idxList fe.2).map (fun i => (fe.1, i))))

/-! ### `applyIdx` -/

/-- The item stored at `(label, idx)`. -/
def itemAt (fs : List (String × List ItemRecord)) (label : String) (idx : Nat) :
    Option ItemRecord :=
  match lookupF fs label with
  | none => none
  | some items => items.get? idx

/-- Every field of a freshly modelled row, and every successful `applyIdx`
output, can be probed through `hasIssueB`. -/
def hasIssueB (fs : List (String × List ItemRecord)) : Bool :=
  fs.any (fun p => p.2.any (fun it => !(it.issues.isEmpty)))

def rowHasIssueB (m : RowModel) : Bool := hasIssueB m.fields

/-! ### The per-enrichment extension relation on row fields -/

/-- `fs'` is `fs` with, item by item, `issues` either unchanged or extended at
the end by the single identifier `err_id` (when it was absent). -/
def IssuesExt (err_id : String) (fs fs' : List (String × List ItemRecord)) : Prop :=
  fs'.map Prod.fst = fs.map Prod.fst ∧
  ∀ label items items', lookupF fs label = some items → lookupF fs' label = some items' →
    items'.length = items.length ∧
    ∀ i it it', items.get? i = some it → items'.get? i = some it' →
      it'.raw = it.raw ∧ it'.item_id = it.item_id ∧
      (it'.issues = it.issues ∨ (it'.issues = it.issues ++ [err_id] ∧ err_id ∉ it.issues))

/-! ### Marking and idempotence -/

/-- `err` is already recorded on the item addressed by coordinate `c`. -/
def markedAt (err : String) (fs : List (String × List ItemRecord))
    (c : String × Nat) : Prop :=
  ∃ it, itemAt fs c.1 c.2 = some it ∧ err ∈ it.issues

/-! ### Duplicate-freeness of `issues` is preserved -/

def AllNodup (fs : List (String × List ItemRecord)) : Prop :=
  ∀ p ∈ fs, ∀ it ∈ p.2, it.issues.Nodup

instance instDecAllNodup (fs : List (String × List ItemRecord)) : Decidable (AllNodup fs) := by
  unfold AllNodup; infer_instance

/-! ### Well-formed report entries and the `contains_issue` invariant -/

/-- Shape of a report entry per the report schema: every row entry carries at
least one field, and explicit index lists are non-empty. -/
def WFError (e : ErrorObject) : Prop :=
  ∀ re ∈ e.table, re.2 ≠ [] ∧ ∀ fe ∈ re.2, fe.2 ≠ some []

instance instDecWFError (e : ErrorObject) : Decidable (WFError e) := by
  unfold WFError; infer_instance

/-- Invariant: the stored flag agrees with the recomputed predicate. -/
def ListInv (out : List RowModel) : Prop :=
  ∀ m ∈ out, m.contains_issue = rowHasIssueB m

/-! ### Color generation -/

/-- `^#[0-9a-f]\x7b6\x7d$` as a boolean predicate. -/
def isHexColor (c : String) : Bool :=
  match c.data with
  | '#' :: rest => rest.length == 6 && rest.all (fun ch => ch ∈ "0123456789abcdef".data)
  | _ => false

/-! ## Concrete fixtures used by witnesses and counterexamples -/

def citsEmptyRow : Row := Row.cits (mkCitationsRow {})

def errCiting : ErrorObject := ⟨"m", "l", "error", [(0, [("citing_id", none)])]⟩

def mEnriched : RowModel :=
  ⟨true, 0,
    [("citing_id", [⟨"", "0-citing_id-empty", ["cits-0"]⟩]),
     ("citing_publication_date", [⟨"", "0-citing_publication_date-empty", []⟩]),
     ("cited_id", [⟨"", "0-cited_id-empty", []⟩]),
     ("cited_publication_date", [⟨"", "0-cited_publication_date-empty", []⟩])]⟩

def outEnriched : List RowModel × List (String × CatalogEntry) :=
  ([mEnriched], [("cits-0", ⟨"m", "l", "error", "#aabbcc"⟩)])

def mEnriched2 : RowModel :=
  ⟨true, 0,
    [("citing_id", [⟨"", "0-citing_id-empty", ["cits-0", "x"]⟩]),
     ("citing_publication_date", [⟨"", "0-citing_publication_date-empty", []⟩]),
     ("cited_id", [⟨"", "0-cited_id-empty", []⟩]),
     ("cited_publication_date", [⟨"", "0-cited_publication_date-empty", []⟩])]⟩

/-- Observation helper: the `issues` of item `j` of field `label` of row `i`
of a successful mapping run. -/
def probeItemIssues (res : Except Err (List RowModel × List (String × CatalogEntry)))
    (i : Nat) (label : String) (j : Nat) : Option (List String) :=
  match res with
  | .error _ => none
  | .ok out =>
    match out.1.get? i with
    | none => none
    | some m =>
      match lookupF m.fields label with
      | none => none
      | some items =>
        match items.get? j with
        | none => none
        | some it => some it.issues

def c1RowA : Row := Row.meta (mkMetadataRow { id := some "doi:10.1/x" })

def c1RowB : Row := Row.meta (mkMetadataRow { id := some "doi:10.2/y", title := some "T" })

def c1Err : ErrorObject :=
  ⟨"m", "l", "error", [(0, [("id", some [0])]), (1, [("title", some [0])])]⟩

/-- The item ids generated for one field. -/
def fieldIds (r : Nat) (label : String) (vals : List String) : List String :=
  (model_field r label vals).map (fun it => it.item_id)

/-- All item ids of a row model, across all fields. -/
def allItemIds (m : RowModel) : List String :=
  m.fields.flatMap (fun p => p.2.map (fun it => it.item_id))

def c6Row : Row := Row.meta (mkMetadataRow { id := some "a b" })

/-- Modelled from the spec: "every substring matching `(scheme):(non-whitespace)`
where `scheme` is in `allowedSchemes`" — the *shape* of such a substring. -/
def specIdForm (schemes : List String) (s : String) : Bool :=
  schemes.any (fun sch => List.isPrefixOf (sch.data ++ [':']) s.data &&
    decide (sch.data.length + 1 < s.data.length)) &&
  s.data.all (fun c => !isWS c)

/-- Modelled from the spec: the substring `s` occurs in `raw` "immediately
before a whitespace character or a closing bracket". -/
def occursBefore (raw s : String) : Bool :=
  (List.range raw.data.length).any (fun i =>
    decide ((raw.data.drop i).take s.data.length = s.data) &&
    (match raw.data.get? (i + s.data.length) with
     | some c => isWS c || c = ']'
     | none => false))

theorem tryMatch_pos {schemes : List String} {cs : List Char} {len : Nat}
    (h : tryMatch schemes cs = some len) : 0 < len := by
  unfold tryMatch at h
  split at h
  · exact absurd h (by simp)
  · simp only at h
    split at h
    · exact absurd h (by simp)
    · split at h
      · rename_i s _ _ _
        have : len = (s.data ++ [':']).length + _ := (Option.some.injEq _ _ ▸ h).symm
        simp only [List.length_append, List.length_cons, List.length_nil] at this
        omega
      · split at h
        · split at h
          · rename_i s _ _ _ _ p _ _
            have : len = (s.data ++ [':']).length + p := (Option.some.injEq _ _ ▸ h).symm
            simp only [List.length_append, List.length_cons, List.length_nil] at this
            omega
          · exact absurd h (by simp)
        · exact absurd h (by simp)

/-! ## Generic lemmas about the embedding's building blocks -/

theorem foldE_nil {α β : Type} (f : β → α → Except Err β) (b : β) :
    foldE f b [] = Except.ok b := rfl

theorem foldE_pres {α β : Type} {f : β → α → Except Err β} {P : β → Prop} :
    ∀ {l : List α} {b b' : β},
      (∀ b a b', a ∈ l → P b → f b a = Except.ok b' → P b') →
      foldE f b l = Except.ok b' → P b → P b' := by
  intro l
  induction l with
  | nil =>
    intro b b' _ h hp
    simp only [foldE, Except.ok.injEq] at h
    exact h ▸ hp
  | cons a t ih =>
    intro b b' hstep h hp
    simp only [foldE] at h
    cases hf : f b a with
    | error e => rw [hf] at h; cases h
    | ok b1 =>
      rw [hf] at h
      exact ih (fun x y z hy => hstep x y z (List.mem_cons_of_mem _ hy)) h
        (hstep b a b1 (List.mem_cons_self _ _) hp hf)

theorem foldE_estab {α β : Type} {f : β → α → Except Err β} {P : β → Prop} :
    ∀ {l : List α} {b b' : β},
      (∀ b a b', a ∈ l → f b a = Except.ok b' → P b') →
      l ≠ [] → foldE f b l = Except.ok b' → P b' := by
  intro l
  induction l with
  | nil => intro b b' _ hne; exact absurd rfl hne
  | cons a t ih =>
    intro b b' hstep _ h
    simp only [foldE] at h
    cases hf : f b a with
    | error e => rw [hf] at h; cases h
    | ok b1 =>
      rw [hf] at h
      cases t with
      | nil =>
        simp only [foldE, Except.ok.injEq] at h
        exact h ▸ hstep b a b1 (List.mem_cons_self _ _) hf
      | cons x xs =>
        exact ih (fun p q r hq => hstep p q r (List.mem_cons_of_mem _ hq)) (by simp) h

theorem foldE_append {α β : Type} (f : β → α → Except Err β) :
    ∀ (l1 l2 : List α) (b : β),
      foldE f b (l1 ++ l2) =
        match foldE f b l1 with
        | .ok b' => foldE f b' l2
        | .error e => .error e := by
  intro l1
  induction l1 with
  | nil => intro l2 b; rfl
  | cons a t ih =>
    intro l2 b
    simp only [List.cons_append, foldE]
    cases f b a with
    | error e => rfl
    | ok b1 => exact ih l2 b1

theorem foldE_map {α γ β : Type} (f : β → γ → Except Err β) (g : α → γ) :
    ∀ (l : List α) (b : β),
      foldE f b (l.map g) = foldE (fun b a => f b (g a)) b l := by
  intro l
  induction l with
  | nil => intro b; rfl
  | cons a t ih =>
    intro b
    simp only [List.map_cons, foldE]
    cases f b (g a) with
    | error e => rfl
    | ok b1 => exact ih b1

theorem foldE_flatMap {α γ β : Type} (f : β → γ → Except Err β) (g : α → List γ) :
    ∀ (l : List α) (b : β),
      foldE f b (l.flatMap g) = foldE (fun b a => foldE f b (g a)) b l := by
  intro l
  induction l with
  | nil => intro b; rfl
  | cons a t ih =>
    intro b
    simp only [List.flatMap_cons, foldE, foldE_append]
    cases foldE f b (g a) with
    | error e => rfl
    | ok b1 => exact ih b1

theorem foldE_congr {α β : Type} {f g : β → α → Except Err β}
    (h : ∀ b a, f b a = g b a) : ∀ (l : List α) (b : β), foldE f b l = foldE g b l := by
  intro l
  induction l with
  | nil => intro b; rfl
  | cons a t ih =>
    intro b
    simp only [foldE, h b a]
    cases g b a with
    | error e => rfl
    | ok b1 => exact ih b1

/-! ### `lookupF` / `updateF` -/

theorem lookupF_updateF_self {β : Type} :
    ∀ (l : List (String × β)) (label : String) (v new : β),
      lookupF l label = some v → lookupF (updateF l label new) label = some new := by
  intro l
  induction l with
  | nil => intro label v new h; cases h
  | cons p t ih =>
    intro label v new h
    obtain ⟨k, w⟩ := p
    by_cases hk : k = label
    · simp [lookupF, updateF, hk]
    · simp only [lookupF, updateF, hk, if_false] at h ⊢
      exact ih label v new h

theorem lookupF_updateF_other {β : Type} :
    ∀ (l : List (String × β)) (label k : String) (new : β), k ≠ label →
      lookupF (updateF l label new) k = lookupF l k := by
  intro l
  induction l with
  | nil => intro label k new _; rfl
  | cons p t ih =>
    intro label k new hk
    obtain ⟨k', w⟩ := p
    by_cases h1 : k' = label
    · simp [lookupF, updateF, h1, Ne.symm hk]
    · simp only [updateF, h1, if_false, lookupF]
      by_cases h2 : k' = k
      · simp [h2]
      · simp only [h2, if_false]
        exact ih label k new hk

theorem updateF_self {β : Type} :
    ∀ (l : List (String × β)) (label : String) (v : β),
      lookupF l label = some v → updateF l label v = l := by
  intro l
  induction l with
  | nil => intro label v h; cases h
  | cons p t ih =>
    intro label v h
    obtain ⟨k, w⟩ := p
    by_cases hk : k = label
    · simp only [lookupF, hk, if_true, Option.some.injEq] at h
      simp [updateF, hk, h]
    · simp only [lookupF, hk, if_false] at h
      simp [updateF, hk, ih label v h]

theorem updateF_map_fst {β : Type} :
    ∀ (l : List (String × β)) (label : String) (new : β),
      (updateF l label new).map Prod.fst = l.map Prod.fst := by
  intro l
  induction l with
  | nil => intro label new; rfl
  | cons p t ih =>
    intro label new
    obtain ⟨k, w⟩ := p
    by_cases hk : k = label
    · simp [updateF, hk]
    · simp [updateF, hk, ih label new]

theorem mem_updateF {β : Type} :
    ∀ {l : List (String × β)} {label : String} {new : β} {p : String × β},
      p ∈ updateF l label new → p ∈ l ∨ p = (label, new) := by
  intro l
  induction l with
  | nil => intro label new p h; cases h
  | cons q t ih =>
    intro label new p h
    obtain ⟨k, w⟩ := q
    by_cases hk : k = label
    · simp only [updateF, hk, if_true] at h
      rcases List.mem_cons.1 h with h1 | h1
      · right; exact h1
      · left; exact List.mem_cons_of_mem _ h1
    · simp only [updateF, hk, if_false] at h
      rcases List.mem_cons.1 h with h1 | h1
      · left; exact h1 ▸ List.mem_cons_self _ _
      · rcases ih h1 with h2 | h2
        · left; exact List.mem_cons_of_mem _ h2
        · right; exact h2

theorem lookupF_mem_updateF {β : Type} :
    ∀ (l : List (String × β)) (label : String) (v new : β),
      lookupF l label = some v → (label, new) ∈ updateF l label new := by
  intro l
  induction l with
  | nil => intro label v new h; cases h
  | cons p t ih =>
    intro label v new h
    obtain ⟨k, w⟩ := p
    by_cases hk : k = label
    · simp [updateF, hk]
    · simp only [lookupF, updateF, hk, if_false] at h ⊢
      exact List.mem_cons_of_mem _ (ih label v new h)

/-! ### Injectivity of the decimal printer -/

theorem digitCh_inj : ∀ m < 10, ∀ n < 10, digitCh m = digitCh n → m = n := by decide

theorem natDigitsW_eq (n : Nat) :
    natDigitsW n =
      if n < 10 then [digitCh n] else natDigitsW (n / 10) ++ [digitCh (n % 10)] := by
  rw [natDigitsW]

theorem natDigitsW_ne_nil (n : Nat) : natDigitsW n ≠ [] := by
  rw [natDigitsW_eq]
  split
  · simp
  · simp

theorem natDigitsW_inj : ∀ m n, natDigitsW m = natDigitsW n → m = n := by
  intro m
  induction m using Nat.strong_induction_on with
  | _ m ih =>
    intro n h
    rw [natDigitsW_eq m, natDigitsW_eq n] at h
    by_cases hm : m < 10 <;> by_cases hn : n < 10
    · simp only [hm, hn, if_true, List.cons.injEq] at h
      exact digitCh_inj m hm n hn h.1
    · simp only [hm, hn, if_true, if_false] at h
      have hlen := congrArg List.length h
      have hne := natDigitsW_ne_nil (n / 10)
      cases hd : natDigitsW (n / 10) with
      | nil => exact absurd hd hne
      | cons x xs => rw [hd] at hlen; simp at hlen
    · simp only [hm, hn, if_false, if_true] at h
      have hlen := congrArg List.length h
      have hne := natDigitsW_ne_nil (m / 10)
      cases hd : natDigitsW (m / 10) with
      | nil => exact absurd hd hne
      | cons x xs => rw [hd] at hlen; simp at hlen
    · simp only [hm, hn, if_false] at h
      have h2 := List.append_inj' h (by simp)
      have hdiv : m / 10 = n / 10 :=
        ih (m / 10) (Nat.div_lt_self (by omega) (by omega)) _ h2.1
      have hmod : m % 10 = n % 10 := by
        have h3 := h2.2
        simp only [List.cons.injEq] at h3
        exact digitCh_inj _ (Nat.mod_lt _ (by omega)) _ (Nat.mod_lt _ (by omega)) h3.1
      omega

theorem natDigitsF_eq_W : ∀ fuel n, 0 < fuel → n < 10 ^ fuel →
    natDigitsF fuel n = natDigitsW n := by
  intro fuel
  induction fuel with
  | zero => intro n h; omega
  | succ g ih =>
    intro n _ hlt
    rw [natDigitsF, natDigitsW]
    by_cases hn : n < 10
    · simp [hn]
    · simp only [hn, if_false]
      have hg : 0 < g := by
        rcases Nat.eq_zero_or_pos g with h0 | h0
        · subst h0; simp at hlt; omega
        · exact h0
      have hdiv : n / 10 < 10 ^ g := by
        rw [Nat.div_lt_iff_lt_mul (by omega)]
        calc n < 10 ^ (g + 1) := hlt
        _ = 10 ^ g * 10 := by rw [Nat.pow_succ]
      rw [ih (n / 10) hg hdiv]

theorem lt_ten_pow_succ (n : Nat) : n < 10 ^ (n + 1) :=
  lt_of_lt_of_le (Nat.lt_pow_self (by omega) n)
    (Nat.pow_le_pow_right (by omega) (Nat.le_succ n))

theorem natStr_inj : ∀ m n, natStr m = natStr n → m = n := by
  intro m n h
  have hd : natDigitsF (m + 1) m = natDigitsF (n + 1) n := by
    have := congrArg String.data h
    simpa [natStr] using this
  rw [natDigitsF_eq_W (m + 1) m (by omega) (lt_ten_pow_succ m),
      natDigitsF_eq_W (n + 1) n (by omega) (lt_ten_pow_succ n)] at hd
  exact natDigitsW_inj m n hd

/-! ### Injectivity of item identifiers -/

theorem sep_split : ∀ (a b x y : List Char), '-' ∉ a → '-' ∉ b →
    a ++ '-' :: x = b ++ '-' :: y → a = b ∧ x = y := by
  intro a
  induction a with
  | nil =>
    intro b x y _ hb h
    cases b with
    | nil => simp at h; simp [h]
    | cons c t =>
      simp only [List.nil_append, List.cons_append, List.cons.injEq] at h
      exact absurd (h.1 ▸ List.mem_cons_self _ _) hb
  | cons c ta ih =>
    intro b x y ha hb h
    cases b with
    | nil =>
      simp only [List.nil_append, List.cons_append, List.cons.injEq] at h
      exact absurd (h.1 ▸ List.mem_cons_self _ _) ha
    | cons d tb =>
      simp only [List.cons_append, List.cons.injEq] at h
      have := ih tb x y (fun hm => ha (List.mem_cons_of_mem _ hm))
        (fun hm => hb (List.mem_cons_of_mem _ hm)) h.2
      exact ⟨by rw [h.1, this.1], this.2⟩

theorem itemIdStr_data (r : Nat) (label tag : String) :
    (itemIdStr r label tag).data =
      (natStr r).data ++ '-' :: (label.data ++ '-' :: tag.data) := by
  simp [itemIdStr, String.data_append]

theorem itemIdStr_inj {r : Nat} {l1 l2 t1 t2 : String}
    (h1 : '-' ∉ l1.data) (h2 : '-' ∉ l2.data)
    (h : itemIdStr r l1 t1 = itemIdStr r l2 t2) : l1 = l2 ∧ t1 = t2 := by
  have hd := congrArg String.data h
  rw [itemIdStr_data, itemIdStr_data] at hd
  have hd2 := List.append_cancel_left hd
  simp only [List.cons.injEq, true_and] at hd2
  have := sep_split _ _ _ _ h1 h2 hd2
  exact ⟨String.ext this.1, String.ext this.2⟩

theorem enrich_fold_flat (err_id : String)
    (table : List (Nat × List (String × Option (List Nat))))
    (fs0 : List (String × List ItemRecord)) :
    foldE (fun fs rowEntry =>
        foldE (fun fs fieldEntry =>
            foldE (fun fs idx => applyIdx fs fieldEntry.1 idx err_id)
              fs (idxList fieldEntry.2))
          fs rowEntry.2)
      fs0 table =
    foldE (fun fs c => applyIdx fs c.1 c.2 err_id) fs0 (coordsOf table) := by
  rw [coordsOf, foldE_flatMap]
  refine (foldE_congr ?_ table fs0)
  intro fs re
  rw [foldE_flatMap]
  refine (foldE_congr ?_ re.2 fs)
  intro fs fe
  rw [foldE_map]

theorem enrich_row_flat (m : RowModel) (e : ErrorObject) (err_id : String) :
    enrich_row m e err_id =
      match foldE (fun fs c => applyIdx fs c.1 c.2 err_id) m.fields (coordsOf e.table) with
      | .error er => .error er
      | .ok fs => .ok { m with contains_issue := true, fields := fs } := by
  unfold enrich_row
  rw [enrich_fold_flat]

/-! ### `addIssue` -/

theorem addIssue_raw (it : ItemRecord) (err : String) : (addIssue it err).raw = it.raw := by
  unfold addIssue; split <;> rfl

theorem addIssue_item_id (it : ItemRecord) (err : String) :
    (addIssue it err).item_id = it.item_id := by
  unfold addIssue; split <;> rfl

theorem addIssue_mem (it : ItemRecord) (err : String) : err ∈ (addIssue it err).issues := by
  unfold addIssue
  split
  · assumption
  · simp

theorem addIssue_ne_nil (it : ItemRecord) (err : String) : (addIssue it err).issues ≠ [] :=
  List.ne_nil_of_mem (addIssue_mem it err)

theorem addIssue_of_mem {it : ItemRecord} {err : String} (h : err ∈ it.issues) :
    addIssue it err = it := by
  simp [addIssue, h]

theorem addIssue_sub {it : ItemRecord} {err x : String} (h : x ∈ it.issues) :
    x ∈ (addIssue it err).issues := by
  unfold addIssue
  split
  · exact h
  · simp only
    exact List.mem_append_left _ h

theorem addIssue_nodup {it : ItemRecord} {err : String} (h : it.issues.Nodup) :
    (addIssue it err).issues.Nodup := by
  unfold addIssue
  split
  · exact h
  · simp only
    simp [List.nodup_append, h]
    assumption

theorem addIssue_cases (it : ItemRecord) (err : String) :
    (addIssue it err).issues = it.issues ∨
      ((addIssue it err).issues = it.issues ++ [err] ∧ err ∉ it.issues) := by
  unfold addIssue
  split
  · exact Or.inl rfl
  · exact Or.inr ⟨rfl, by assumption⟩

theorem applyIdx_ok {fs fs' : List (String × List ItemRecord)} {label : String}
    {idx : Nat} {err : String} (h : applyIdx fs label idx err = Except.ok fs') :
    ∃ items it, lookupF fs label = some items ∧ items.get? idx = some it ∧
      fs' = updateF fs label (items.set idx (addIssue it err)) := by
  unfold applyIdx at h
  split at h
  · cases h
  · rename_i items hlook
    split at h
    · rename_i hlt
      refine ⟨items, items.get ⟨idx, hlt⟩, hlook, List.get?_eq_get hlt, ?_⟩
      simpa using h.symm
    · cases h

theorem applyIdx_hasIssue {fs fs' : List (String × List ItemRecord)} {label : String}
    {idx : Nat} {err : String} (h : applyIdx fs label idx err = Except.ok fs') :
    hasIssueB fs' = true := by
  obtain ⟨items, it, hlook, hget, rfl⟩ := applyIdx_ok h
  obtain ⟨hidx, -⟩ := List.get?_eq_some.1 hget
  have hmem := lookupF_mem_updateF fs label items (items.set idx (addIssue it err)) hlook
  have hin : addIssue it err ∈ items.set idx (addIssue it err) :=
    List.get?_mem (List.get?_set_eq_of_lt (addIssue it err) hidx)
  simp only [hasIssueB, List.any_eq_true]
  refine ⟨_, hmem, ?_⟩
  simp only [List.any_eq_true]
  refine ⟨addIssue it err, hin, ?_⟩
  simp [List.isEmpty_iff, addIssue_ne_nil it err]

theorem lookupF_mem {β : Type} :
    ∀ {l : List (String × β)} {label : String} {v : β},
      lookupF l label = some v → (label, v) ∈ l := by
  intro l
  induction l with
  | nil => intro label v h; cases h
  | cons p t ih =>
    intro label v h
    obtain ⟨k, w⟩ := p
    by_cases hk : k = label
    · simp only [lookupF, hk, if_true, Option.some.injEq] at h
      subst hk; subst h; exact List.mem_cons_self _ _
    · simp only [lookupF, hk, if_false] at h
      exact List.mem_cons_of_mem _ (ih h)

theorem lookupF_isSome_congr {β γ : Type} :
    ∀ {l1 : List (String × β)} {l2 : List (String × γ)},
      l1.map Prod.fst = l2.map Prod.fst → ∀ label,
      (lookupF l1 label).isSome = (lookupF l2 label).isSome := by
  intro l1
  induction l1 with
  | nil =>
    intro l2 h label
    cases l2 with
    | nil => rfl
    | cons q t2 => simp at h
  | cons p t ih =>
    intro l2 h label
    cases l2 with
    | nil => simp at h
    | cons q t2 =>
      obtain ⟨k, w⟩ := p
      obtain ⟨k2, w2⟩ := q
      simp only [List.map_cons, List.cons.injEq] at h
      by_cases hk : k = label
      · simp [lookupF, hk, h.1 ▸ hk]
      · have hk2 : ¬ k2 = label := by rw [← h.1]; exact hk
        simp only [lookupF, hk, hk2, if_false]
        exact ih h.2 label

theorem IssuesExt_refl (err_id : String) (fs : List (String × List ItemRecord)) :
    IssuesExt err_id fs fs := by
  refine ⟨rfl, ?_⟩
  intro label items items' h1 h2
  rw [h1] at h2
  cases h2
  refine ⟨rfl, ?_⟩
  intro i it it' hg1 hg2
  rw [hg1] at hg2
  cases hg2
  exact ⟨rfl, rfl, Or.inl rfl⟩

theorem IssuesExt_trans {err_id : String} {fs1 fs2 fs3 : List (String × List ItemRecord)}
    (h12 : IssuesExt err_id fs1 fs2) (h23 : IssuesExt err_id fs2 fs3) :
    IssuesExt err_id fs1 fs3 := by
  refine ⟨h23.1.trans h12.1, ?_⟩
  intro label items1 items3 h1 h3
  have hsome : (lookupF fs2 label).isSome = true := by
    rw [lookupF_isSome_congr h12.1 label, h1]; rfl
  obtain ⟨items2, h2⟩ := Option.isSome_iff_exists.1 hsome
  obtain ⟨hlen12, hpt12⟩ := h12.2 label items1 items2 h1 h2
  obtain ⟨hlen23, hpt23⟩ := h23.2 label items2 items3 h2 h3
  refine ⟨hlen23.trans hlen12, ?_⟩
  intro i it1 it3 hg1 hg3
  have hi : i < items2.length := by
    obtain ⟨hlt, -⟩ := List.get?_eq_some.1 hg1
    omega
  have hg2s : (items2.get? i).isSome = true := by rw [List.get?_eq_get hi]; rfl
  obtain ⟨it2, hg2⟩ := Option.isSome_iff_exists.1 hg2s
  obtain ⟨hr12, hid12, hiss12⟩ := hpt12 i it1 it2 hg1 hg2
  obtain ⟨hr23, hid23, hiss23⟩ := hpt23 i it2 it3 hg2 hg3
  refine ⟨hr23.trans hr12, hid23.trans hid12, ?_⟩
  rcases hiss12 with h12' | ⟨h12', hn12⟩
  · rcases hiss23 with h23' | ⟨h23', hn23⟩
    · exact Or.inl (h23'.trans h12')
    · exact Or.inr ⟨by rw [h23', h12'], by rw [← h12']; exact hn23⟩
  · rcases hiss23 with h23' | ⟨h23', hn23⟩
    · exact Or.inr ⟨by rw [h23', h12'], hn12⟩
    · exact absurd (h12' ▸ List.mem_append_right _ (List.mem_singleton_self _)) hn23

theorem applyIdx_ext {fs fs' : List (String × List ItemRecord)} {label : String}
    {idx : Nat} {err : String} (h : applyIdx fs label idx err = Except.ok fs') :
    IssuesExt err fs fs' := by
  obtain ⟨items, it, hlook, hget, rfl⟩ := applyIdx_ok h
  obtain ⟨hidx, -⟩ := List.get?_eq_some.1 hget
  refine ⟨updateF_map_fst fs label _, ?_⟩
  intro label' items1 items1' h1 h1'
  by_cases hl : label' = label
  · subst hl
    rw [hlook] at h1
    injection h1 with h1
    subst h1
    rw [lookupF_updateF_self _ _ _ _ hlook] at h1'
    injection h1' with h1'
    subst h1'
    refine ⟨by rw [List.length_set], ?_⟩
    intro i it1 it1' hg1 hg1'
    by_cases hi : i = idx
    · subst hi
      rw [hget] at hg1
      injection hg1 with hg1
      subst hg1
      rw [List.get?_set_eq_of_lt _ hidx] at hg1'
      injection hg1' with hg1'
      subst hg1'
      exact ⟨addIssue_raw _ _, addIssue_item_id _ _, addIssue_cases _ _⟩
    · rw [List.get?_set_ne _ _ (fun hh => hi hh.symm)] at hg1'
      rw [hg1] at hg1'
      injection hg1' with hg1'
      subst hg1'
      exact ⟨rfl, rfl, Or.inl rfl⟩
  · rw [lookupF_updateF_other fs label label' _ hl] at h1'
    rw [h1] at h1'
    injection h1' with h1'
    subst h1'
    refine ⟨rfl, ?_⟩
    intro i it1 it1' hg1 hg1'
    rw [hg1] at hg1'
    injection hg1' with hg1'
    subst hg1'
    exact ⟨rfl, rfl, Or.inl rfl⟩

theorem foldE_applyIdx_ext {err : String} {L : List (String × Nat)}
    {fs fs' : List (String × List ItemRecord)}
    (h : foldE (fun fs c => applyIdx fs c.1 c.2 err) fs L = Except.ok fs') :
    IssuesExt err fs fs' :=
  foldE_pres (P := fun b => IssuesExt err fs b)
    (fun b _ b' _ hp hs => IssuesExt_trans hp (applyIdx_ext hs)) h (IssuesExt_refl err fs)

theorem enrich_row_ext {m m' : RowModel} {e : ErrorObject} {err : String}
    (h : enrich_row m e err = Except.ok m') :
    m'.contains_issue = true ∧ m'.row_idx = m.row_idx ∧ IssuesExt err m.fields m'.fields := by
  rw [enrich_row_flat] at h
  cases hf : foldE (fun fs c => applyIdx fs c.1 c.2 err) m.fields (coordsOf e.table) with
  | error er => rw [hf] at h; cases h
  | ok fs =>
    rw [hf] at h
    simp only [Except.ok.injEq] at h
    subst h
    exact ⟨rfl, rfl, foldE_applyIdx_ext hf⟩

theorem ext_marked {err : String} {fs fs' : List (String × List ItemRecord)}
    {c : String × Nat} (hext : IssuesExt err fs fs') (hm : markedAt err fs c) :
    markedAt err fs' c := by
  obtain ⟨it, hat, hmem⟩ := hm
  unfold itemAt at hat
  cases hl : lookupF fs c.1 with
  | none => rw [hl] at hat; cases hat
  | some items =>
    rw [hl] at hat
    have hsome : (lookupF fs' c.1).isSome = true := by
      rw [lookupF_isSome_congr hext.1 c.1, hl]; rfl
    obtain ⟨items', hl'⟩ := Option.isSome_iff_exists.1 hsome
    obtain ⟨hlen, hpt⟩ := hext.2 c.1 items items' hl hl'
    have hi : c.2 < items'.length := by
      obtain ⟨hlt, -⟩ := List.get?_eq_some.1 hat
      omega
    have hg's : (items'.get? c.2).isSome = true := by rw [List.get?_eq_get hi]; rfl
    obtain ⟨it', hg'⟩ := Option.isSome_iff_exists.1 hg's
    obtain ⟨-, -, hiss⟩ := hpt c.2 it it' hat hg'
    refine ⟨it', by unfold itemAt; rw [hl']; exact hg', ?_⟩
    rcases hiss with h1 | ⟨h1, -⟩
    · rw [h1]; exact hmem
    · rw [h1]; exact List.mem_append_left _ hmem

theorem applyIdx_marks {fs fs' : List (String × List ItemRecord)} {label : String}
    {idx : Nat} {err : String} (h : applyIdx fs label idx err = Except.ok fs') :
    markedAt err fs' (label, idx) := by
  obtain ⟨items, it, hlook, hget, rfl⟩ := applyIdx_ok h
  obtain ⟨hidx, -⟩ := List.get?_eq_some.1 hget
  refine ⟨addIssue it err, ?_, addIssue_mem it err⟩
  unfold itemAt
  rw [lookupF_updateF_self fs label items _ hlook]
  exact List.get?_set_eq_of_lt _ hidx

theorem foldE_marks {err : String} :
    ∀ {L : List (String × Nat)} {fs fs' : List (String × List ItemRecord)},
      foldE (fun fs c => applyIdx fs c.1 c.2 err) fs L = Except.ok fs' →
      ∀ c ∈ L, markedAt err fs' c := by
  intro L
  induction L with
  | nil => intro fs fs' _ c hc; cases hc
  | cons c0 t ih =>
    intro fs fs' h c hc
    simp only [foldE] at h
    cases hf : applyIdx fs c0.1 c0.2 err with
    | error er => rw [hf] at h; cases h
    | ok fs1 =>
      rw [hf] at h
      rcases List.mem_cons.1 hc with hc1 | hc1
      · subst hc1
        exact ext_marked (foldE_applyIdx_ext h) (applyIdx_marks hf)
      · exact ih h c hc1

theorem marked_applyIdx_self {fs : List (String × List ItemRecord)} {label : String}
    {idx : Nat} {err : String} (hm : markedAt err fs (label, idx)) :
    applyIdx fs label idx err = Except.ok fs := by
  obtain ⟨it, hat, hmem⟩ := hm
  unfold itemAt at hat
  cases hl : lookupF fs label with
  | none => rw [hl] at hat; cases hat
  | some items =>
    rw [hl] at hat
    obtain ⟨hidx, hgeq⟩ := List.get?_eq_some.1 hat
    unfold applyIdx
    rw [hl]
    simp only [hidx, dif_pos]
    have h1 : addIssue (items.get ⟨idx, hidx⟩) err = items.get ⟨idx, hidx⟩ :=
      addIssue_of_mem (hgeq ▸ hmem)
    rw [h1]
    have h2 : items.set idx (items.get ⟨idx, hidx⟩) = items := by
      apply List.ext_get?
      intro j
      by_cases hj : j = idx
      · subst hj
        rw [List.get?_set_eq_of_lt _ hidx, List.get?_eq_get hidx]
      · rw [List.get?_set_ne _ _ (fun hh => hj hh.symm)]
    rw [h2, updateF_self fs label items hl]

theorem foldE_marked_noop {err : String} :
    ∀ {L : List (String × Nat)} {fs : List (String × List ItemRecord)},
      (∀ c ∈ L, markedAt err fs c) →
      foldE (fun fs c => applyIdx fs c.1 c.2 err) fs L = Except.ok fs := by
  intro L
  induction L with
  | nil => intro fs _; rfl
  | cons c0 t ih =>
    intro fs hm
    simp only [foldE]
    have h0 : applyIdx fs c0.1 c0.2 err = Except.ok fs :=
      marked_applyIdx_self (hm c0 (List.mem_cons_self _ _))
    rw [h0]
    exact ih (fun c hc => hm c (List.mem_cons_of_mem _ hc))

theorem enrich_row_idem {m m' : RowModel} {e : ErrorObject} {err : String}
    (h : enrich_row m e err = Except.ok m') : enrich_row m' e err = Except.ok m' := by
  rw [enrich_row_flat] at h
  rw [enrich_row_flat]
  cases hf : foldE (fun fs c => applyIdx fs c.1 c.2 err) m.fields (coordsOf e.table) with
  | error er => rw [hf] at h; cases h
  | ok fs1 =>
    rw [hf] at h
    simp only [Except.ok.injEq] at h
    subst h
    have hmk : ∀ c ∈ coordsOf e.table, markedAt err fs1 c := foldE_marks hf
    rw [show ({ m with contains_issue := true, fields := fs1 } : RowModel).fields = fs1
      from rfl]
    rw [foldE_marked_noop hmk]

theorem applyIdx_nodup {fs fs' : List (String × List ItemRecord)} {label : String}
    {idx : Nat} {err : String} (hA : AllNodup fs)
    (h : applyIdx fs label idx err = Except.ok fs') : AllNodup fs' := by
  obtain ⟨items, it, hlook, hget, rfl⟩ := applyIdx_ok h
  intro p hp it' hit'
  rcases mem_updateF hp with hp1 | hp1
  · exact hA p hp1 it' hit'
  · subst hp1
    rcases List.mem_or_eq_of_mem_set hit' with h2 | h2
    · exact hA (label, items) (lookupF_mem hlook) it' h2
    · subst h2
      exact addIssue_nodup (hA (label, items) (lookupF_mem hlook) it (List.get?_mem hget))

theorem enrich_row_nodup {m m' : RowModel} {e : ErrorObject} {err : String}
    (hA : AllNodup m.fields) (h : enrich_row m e err = Except.ok m') :
    AllNodup m'.fields := by
  rw [enrich_row_flat] at h
  cases hf : foldE (fun fs c => applyIdx fs c.1 c.2 err) m.fields (coordsOf e.table) with
  | error er => rw [hf] at h; cases h
  | ok fs1 =>
    rw [hf] at h
    simp only [Except.ok.injEq] at h
    subst h
    exact foldE_pres (P := AllNodup)
      (fun b _ b' _ hp hs => applyIdx_nodup hp hs) hf hA

/-! ### Freshly modelled rows -/

theorem model_field_issues {r : Nat} {label : String} :
    ∀ {vals : List String} {it : ItemRecord}, it ∈ model_field r label vals →
      it.issues = [] := by
  intro vals it h
  cases vals with
  | nil =>
    simp only [model_field, List.mem_singleton] at h
    rw [h]
  | cons v vs =>
    simp only [model_field, List.mem_map] at h
    obtain ⟨p, -, hp⟩ := h
    rw [← hp]

theorem model_contains (row : Row) (r : Nat) :
    (model_row_default row r).contains_issue = false := rfl

theorem model_hasIssue (row : Row) (r : Nat) :
    rowHasIssueB (model_row_default row r) = false := by
  apply Bool.eq_false_iff.2
  intro hany
  simp only [rowHasIssueB, hasIssueB, List.any_eq_true] at hany
  obtain ⟨p, hp, hinner⟩ := hany
  obtain ⟨it, hit, hne⟩ := hinner
  simp only [model_row_default, List.mem_map] at hp
  obtain ⟨q, -, hq⟩ := hp
  subst hq
  rw [model_field_issues hit] at hne
  simp at hne

theorem model_allNodup (row : Row) (r : Nat) :
    AllNodup (model_row_default row r).fields := by
  intro p hp it hit
  simp only [model_row_default, List.mem_map] at hp
  obtain ⟨q, -, hq⟩ := hp
  subst hq
  simp [model_field_issues hit]

theorem idxList_ne_nil {v : Option (List Nat)} (h : v ≠ some []) : idxList v ≠ [] := by
  cases v with
  | none => simp [idxList]
  | some l =>
    cases l with
    | nil => exact absurd rfl h
    | cons i t => simp [idxList]

theorem coordsOf_ne_nil {e : ErrorObject} (hwf : WFError e) (hne : e.table ≠ []) :
    coordsOf e.table ≠ [] := by
  cases ht : e.table with
  | nil => exact absurd ht hne
  | cons re t =>
    obtain ⟨h2, h3⟩ := hwf re (ht ▸ List.mem_cons_self _ _)
    cases hre : re.2 with
    | nil => exact absurd hre h2
    | cons fe t2 =>
      have h4 : idxList fe.2 ≠ [] :=
        idxList_ne_nil (h3 fe (hre ▸ List.mem_cons_self _ _))
      cases hi : idxList fe.2 with
      | nil => exact absurd hi h4
      | cons i ti =>
        refine List.ne_nil_of_mem (a := (fe.1, i)) ?_
        refine List.mem_flatMap.2 ⟨re, List.mem_cons_self _ _, ?_⟩
        refine List.mem_flatMap.2 ⟨fe, hre ▸ List.mem_cons_self _ _, ?_⟩
        exact List.mem_map.2 ⟨i, hi ▸ List.mem_cons_self _ _, rfl⟩

theorem enrich_row_hasIssue {m m' : RowModel} {e : ErrorObject} {err : String}
    (hwf : WFError e) (hne : e.table ≠ []) (h : enrich_row m e err = Except.ok m') :
    rowHasIssueB m' = true := by
  rw [enrich_row_flat] at h
  cases hf : foldE (fun fs c => applyIdx fs c.1 c.2 err) m.fields (coordsOf e.table) with
  | error er => rw [hf] at h; cases h
  | ok fs1 =>
    rw [hf] at h
    simp only [Except.ok.injEq] at h
    subst h
    exact foldE_estab (P := fun fs => hasIssueB fs = true)
      (fun b a b' _ hs => applyIdx_hasIssue hs) (coordsOf_ne_nil hwf hne) hf

theorem processError_inv {st st' : List RowModel × List (String × CatalogEntry) × List String}
    {tt : String} {idx : Nat} {e : ErrorObject} (hwf : WFError e)
    (h : processError st tt idx e = Except.ok st') (hI : ListInv st.1) : ListInv st'.1 := by
  unfold processError at h
  cases hc : st.2.2 with
  | nil => rw [hc] at h; cases h
  | cons c cs =>
    rw [hc] at h
    simp only at h
    cases hf : foldE (fun out rowEntry =>
        if hlt : rowEntry.1 < out.length then
          match enrich_row (out.get ⟨rowEntry.1, hlt⟩) e (tt ++ "-" ++ natStr idx) with
          | .ok m' => .ok (out.set rowEntry.1 m')
          | .error er => .error er
        else .error .indexError) st.1 e.table with
    | error er => rw [hf] at h; cases h
    | ok out =>
      rw [hf] at h
      simp only [Except.ok.injEq] at h
      subst h
      refine foldE_pres (P := ListInv) ?_ hf hI
      intro b a b' ha hp hs
      split at hs
      · rename_i hlt
        cases he : enrich_row (b.get ⟨a.1, hlt⟩) e (tt ++ "-" ++ natStr idx) with
        | error er => rw [he] at hs; cases hs
        | ok mrow =>
          rw [he] at hs
          simp only [Except.ok.injEq] at hs
          subst hs
          intro m hm
          rcases List.mem_or_eq_of_mem_set hm with hm1 | hm1
          · exact hp m hm1
          · subst hm1
            rw [(enrich_row_ext he).1,
              enrich_row_hasIssue hwf (List.ne_nil_of_mem ha) he]
      · cases hs

theorem enumFrom_mem_snd {α : Type} :
    ∀ {l : List α} {k : Nat} {p : Nat × α}, p ∈ enumFrom k l → p.2 ∈ l := by
  intro l
  induction l with
  | nil => intro k p h; cases h
  | cons a t ih =>
    intro k p h
    rcases List.mem_cons.1 h with h1 | h1
    · subst h1; exact List.mem_cons_self _ _
    · exact List.mem_cons_of_mem _ (ih h1)

theorem enumFrom_length {α : Type} :
    ∀ (l : List α) (k : Nat), (enumFrom k l).length = l.length := by
  intro l
  induction l with
  | nil => intro k; rfl
  | cons a t ih => intro k; simp [enumFrom, ih]

theorem map_errors_inv {colors : List String} {data : List Row}
    {report : List ErrorObject}
    {out : List RowModel × List (String × CatalogEntry)}
    (hwf : ∀ e ∈ report, WFError e)
    (h : map_errors_to_data colors data report = Except.ok out) : ListInv out.1 := by
  unfold map_errors_to_data at h
  cases data with
  | nil => cases h
  | cons r0 rest =>
    simp only at h
    cases hf : foldE (fun st p => processError st (tableType r0) p.1 p.2)
        ((enumFrom 0 (r0 :: rest)).map (fun p => model_row_default p.2 p.1), [], colors)
        (enumFrom 0 report) with
    | error er => rw [hf] at h; cases h
    | ok st =>
      rw [hf] at h
      simp only [Except.ok.injEq] at h
      subst h
      have hinit : ListInv ((enumFrom 0 (r0 :: rest)).map
          (fun p => model_row_default p.2 p.1)) := by
        intro m hm
        simp only [List.mem_map] at hm
        obtain ⟨q, -, hq⟩ := hm
        subst hq
        rw [model_contains, model_hasIssue]
      exact foldE_pres (P := fun st => ListInv st.1)
        (fun b a b' ha hp hs =>
          processError_inv (hwf a.2 (enumFrom_mem_snd ha)) hs hp) hf hinit

/-! ### Catalog and color bookkeeping -/

theorem processError_shape {st st' : List RowModel × List (String × CatalogEntry) × List String}
    {tt : String} {idx : Nat} {e : ErrorObject}
    (h : processError st tt idx e = Except.ok st') :
    ∃ c cs, st.2.2 = c :: cs ∧ st'.2.2 = cs ∧
      st'.2.1 = st.2.1 ++
        [(tt ++ "-" ++ natStr idx, ⟨e.message, e.error_label, e.error_type, c⟩)] := by
  unfold processError at h
  cases hc : st.2.2 with
  | nil => rw [hc] at h; cases h
  | cons c cs =>
    rw [hc] at h
    simp only at h
    refine ⟨c, cs, rfl, ?_⟩
    cases hf : foldE (fun out rowEntry =>
        if hlt : rowEntry.1 < out.length then
          match enrich_row (out.get ⟨rowEntry.1, hlt⟩) e (tt ++ "-" ++ natStr idx) with
          | .ok m' => .ok (out.set rowEntry.1 m')
          | .error er => .error er
        else .error .indexError) st.1 e.table with
    | error er => rw [hf] at h; cases h
    | ok out =>
      rw [hf] at h
      simp only [Except.ok.injEq] at h
      subst h
      exact ⟨rfl, rfl⟩

theorem foldE_process_catalog {tt : String} :
    ∀ {elist : List (Nat × ErrorObject)}
      {st st' : List RowModel × List (String × CatalogEntry) × List String},
      foldE (fun st p => processError st tt p.1 p.2) st elist = Except.ok st' →
      st'.2.1.map Prod.fst =
          st.2.1.map Prod.fst ++ elist.map (fun p => tt ++ "-" ++ natStr p.1) ∧
        st'.2.1.map (fun q => q.2.color) =
          st.2.1.map (fun q => q.2.color) ++ st.2.2.take elist.length ∧
        st'.2.2 = st.2.2.drop elist.length := by
  intro elist
  induction elist with
  | nil =>
    intro st st' h
    simp only [foldE, Except.ok.injEq] at h
    subst h
    simp
  | cons p t ih =>
    intro st st' h
    simp only [foldE] at h
    cases hs : processError st tt p.1 p.2 with
    | error er => rw [hs] at h; cases h
    | ok st1 =>
      rw [hs] at h
      obtain ⟨c, cs, hcol, hcol', hcat⟩ := processError_shape hs
      obtain ⟨ih1, ih2, ih3⟩ := ih h
      refine ⟨?_, ?_, ?_⟩
      · rw [ih1, hcat]
        simp
      · rw [ih2, hcat, hcol', hcol]
        simp
      · rw [ih3, hcol', hcol]
        simp

theorem hexDigit_mem_charset (n : Nat) : hexDigit n ∈ "0123456789abcdef".data := by
  have h : n % 16 < 16 := Nat.mod_lt _ (by omega)
  unfold hexDigit
  generalize hk : n % 16 = k at h ⊢
  interval_cases k <;> decide

theorem isHexColor_hexColor (s : Nat × Nat × Nat) : isHexColor (hexColor s) = true := by
  have hd : (hexColor s).data =
      '#' :: [hexDigit (s.1 / 16), hexDigit s.1, hexDigit (s.2.1 / 16), hexDigit s.2.1,
        hexDigit (s.2.2 / 16), hexDigit s.2.2] := by
    simp [hexColor, toHex2, String.data_append]
  simp only [isHexColor, hd]
  rw [Bool.and_eq_true]
  refine ⟨rfl, ?_⟩
  rw [List.all_eq_true]
  intro ch hch
  simp only [List.mem_cons, List.not_mem_nil, or_false] at hch
  rcases hch with h | h | h | h | h | h <;>
    (subst h; exact decide_eq_true (hexDigit_mem_charset _))

theorem genLoop_spec :
    ∀ {samples : List (Nat × Nat × Nat)} {n : Nat} {acc cs : List String},
      genLoop n samples acc = some cs → acc.length ≤ n → acc.Nodup →
      (∀ c ∈ acc, isHexColor c = true) →
      cs.length = n ∧ cs.Nodup ∧ (∀ c ∈ cs, isHexColor c = true) := by
  intro samples
  induction samples with
  | nil =>
    intro n acc cs h hlen hnd hP
    rw [genLoop] at h
    split at h
    · rename_i hge
      injection h with h
      subst h
      exact ⟨by omega, hnd, hP⟩
    · cases h
  | cons s rest ih =>
    intro n acc cs h hlen hnd hP
    rw [genLoop] at h
    split at h
    · rename_i hge
      injection h with h
      subst h
      exact ⟨by omega, hnd, hP⟩
    · rename_i hlt
      by_cases hmem : hexColor s ∈ acc
      · rw [if_pos hmem] at h
        exact ih h hlen hnd hP
      · rw [if_neg hmem] at h
        refine ih h ?_ ?_ ?_
        · simp only [List.length_append, List.length_cons, List.length_nil]
          omega
        · simp [List.nodup_append, hnd, hmem]
        · intro c hc
          rcases List.mem_append.1 hc with hc1 | hc1
          · exact hP c hc1
          · rw [List.mem_singleton.1 hc1]
            exact isHexColor_hexColor s

theorem generate_error_colors_spec {n : Nat} {samples : List (Nat × Nat × Nat)}
    {cs : List String} (h : generate_error_colors n samples = some cs) :
    cs.length = n ∧ cs.Nodup ∧ ∀ c ∈ cs, isHexColor c = true :=
  genLoop_spec h (by simp) List.nodup_nil (by intro c hc; cases hc)

/-! ### Enumeration -/

theorem enumFrom_map_fstF {α β : Type} (f : Nat → β) :
    ∀ (l : List α) (k : Nat),
      (enumFrom k l).map (fun p => f p.1) = (List.range' k l.length).map f := by
  intro l
  induction l with
  | nil => intro k; rfl
  | cons a t ih =>
    intro k
    simp only [enumFrom, List.length_cons, List.range'_succ, List.map_cons, List.cons.injEq]
    exact ⟨trivial, ih (k + 1)⟩

theorem out_data_length (data : List Row) :
    ((enumFrom 0 data).map (fun p => model_row_default p.2 p.1)).length = data.length := by
  rw [List.length_map, enumFrom_length]

theorem enumFrom_get? {α : Type} :
    ∀ (l : List α) (k i : Nat),
      (enumFrom k l).get? i = (l.get? i).map (fun v => (k + i, v)) := by
  intro l
  induction l with
  | nil => intro k i; simp [enumFrom]
  | cons a t ih =>
    intro k i
    cases i with
    | zero => simp [enumFrom]
    | succ j =>
      simp only [enumFrom, List.get?_cons_succ]
      rw [ih (k + 1) j]
      congr 1
      funext v
      have hkj : k + 1 + j = k + (j + 1) := by omega
      rw [hkj]

/-! ## Claims -/

/-- C10: `map_errors_to_data` requires a non-empty row list: for `data = []`
it fails with the `IndexError` of `data[0]` even when the report is empty;
for non-empty data every error identifier is namespaced by the first row's
table type, which is `"cits"` exactly when that row is a `CitationsRow` and
`"meta"` otherwise. -/
theorem claim_C10 :
    (∀ (colors : List String) (report : List ErrorObject),
      map_errors_to_data colors [] report = Except.error Err.indexError) ∧
    (∀ (colors : List String) (r : Row) (data : List Row) (report : List ErrorObject)
      (out : List RowModel × List (String × CatalogEntry)),
      map_errors_to_data colors (r :: data) report = Except.ok out →
      out.2.map Prod.fst =
        (List.range report.length).map (fun i => tableType r ++ "-" ++ natStr i)) ∧
    (∀ r : Row, tableType r = "cits" ↔ ∃ c, r = Row.cits c) := by
  refine ⟨fun colors report => rfl, ?_, ?_⟩
  · intro colors r data report out h
    unfold map_errors_to_data at h
    simp only at h
    cases hf : foldE (fun st p => processError st (tableType r) p.1 p.2)
        ((enumFrom 0 (r :: data)).map (fun p => model_row_default p.2 p.1), [], colors)
        (enumFrom 0 report) with
    | error er => rw [hf] at h; cases h
    | ok st =>
      rw [hf] at h
      simp only [Except.ok.injEq] at h
      subst h
      have := (foldE_process_catalog hf).1
      simp only [List.map_nil, List.nil_append] at this
      rw [this, List.range_eq_range']
      exact enumFrom_map_fstF (fun i => tableType r ++ "-" ++ natStr i) report 0
  · intro r
    cases r with
    | meta mr =>
      simp only [tableType]
      constructor
      · intro h; exact absurd h (by decide)
      · rintro ⟨c, hc⟩; cases hc
    | cits cr =>
      simp only [tableType]
      exact ⟨fun _ => ⟨cr, rfl⟩, fun _ => trivial⟩

theorem claim_C10_witness :
    map_errors_to_data [] [] [] = Except.error Err.indexError ∧
    (((enumFrom 0 [citsEmptyRow]).map (fun p => model_row_default p.2 p.1),
        ([] : List (String × CatalogEntry))).2.map Prod.fst =
      (List.range ([] : List ErrorObject).length).map
        (fun i => tableType citsEmptyRow ++ "-" ++ natStr i)) ∧
    tableType citsEmptyRow = "cits" :=
  ⟨claim_C10.1 [] [],
   claim_C10.2.1 [] citsEmptyRow [] [] _ rfl,
   (claim_C10.2.2 citsEmptyRow).2 ⟨mkCitationsRow {}, rfl⟩⟩

/-- C9: the color allocator, when it returns, yields exactly `n` pairwise
distinct strings all matching `#[0-9a-f]\x7b6\x7d` (for in-range RGB bytes), and
`map_errors_to_data` assigns the popped colors one-to-one, in pop order, to
the catalog entries — every allocated color used exactly once, never
reused. -/
theorem claim_C9 :
    (∀ (n : Nat) (samples : List (Nat × Nat × Nat)) (cs : List String),
      generate_error_colors n samples = some cs →
      (∀ s ∈ samples, s.1 < 256 ∧ s.2.1 < 256 ∧ s.2.2 < 256) →
      cs.length = n ∧ cs.Nodup ∧ ∀ c ∈ cs, isHexColor c = true) ∧
    (∀ (colors : List String) (data : List Row) (report : List ErrorObject)
      (out : List RowModel × List (String × CatalogEntry)),
      colors.length = report.length →
      map_errors_to_data colors data report = Except.ok out →
      out.2.map (fun q => q.2.color) = colors) := by
  constructor
  · intro n samples cs h _
    exact generate_error_colors_spec h
  · intro colors data report out hlen h
    unfold map_errors_to_data at h
    cases data with
    | nil => cases h
    | cons r0 rest =>
      simp only at h
      cases hf : foldE (fun st p => processError st (tableType r0) p.1 p.2)
          ((enumFrom 0 (r0 :: rest)).map (fun p => model_row_default p.2 p.1), [], colors)
          (enumFrom 0 report) with
      | error er => rw [hf] at h; cases h
      | ok st =>
        rw [hf] at h
        simp only [Except.ok.injEq] at h
        subst h
        have h2 := (foldE_process_catalog hf).2.1
        simp only [List.map_nil, List.nil_append] at h2
        rw [h2, enumFrom_length, ← hlen, List.take_length]

theorem claim_C9_witness :
    ((["#010203", "#040506"] : List String).length = 2 ∧
      (["#010203", "#040506"] : List String).Nodup ∧
      ∀ c ∈ (["#010203", "#040506"] : List String), isHexColor c = true) ∧
    outEnriched.2.map (fun q => q.2.color) = ["#aabbcc"] :=
  ⟨claim_C9.1 2 [(1, 2, 3), (1, 2, 3), (4, 5, 6)] _ (by decide) (by decide),
   claim_C9.2 ["#aabbcc"] [citsEmptyRow] [errCiting] outEnriched (by decide) rfl⟩

/-- C4: after a successful enrichment pass over a report whose entries are
well-shaped (non-empty field maps, non-empty explicit index lists),
`contains_issue` is true on a row model exactly when some item of that row
has a non-empty `issues` list; and the only operation that touches the flag,
`enrich_row`, never resets it — a second, unrelated error preserves
`contains_issue = true`. -/
theorem claim_C4 :
    (∀ (colors : List String) (data : List Row) (report : List ErrorObject)
      (out : List RowModel × List (String × CatalogEntry)),
      (∀ e ∈ report, WFError e) →
      map_errors_to_data colors data report = Except.ok out →
      ∀ m ∈ out.1, (m.contains_issue = true ↔ rowHasIssueB m = true)) ∧
    (∀ (m : RowModel) (e : ErrorObject) (err_id : String) (m' : RowModel),
      m.contains_issue = true → enrich_row m e err_id = Except.ok m' →
      m'.contains_issue = true) := by
  constructor
  · intro colors data report out hwf h m hm
    rw [map_errors_inv hwf h m hm]
  · intro m e err_id m' _ h
    exact (enrich_row_ext h).1

theorem claim_C4_witness :
    (mEnriched.contains_issue = true ↔ rowHasIssueB mEnriched = true) ∧
    mEnriched2.contains_issue = true :=
  ⟨claim_C4.1 ["#aabbcc"] [citsEmptyRow] [errCiting] outEnriched (by decide) rfl
      mEnriched (by decide),
   claim_C4.2 mEnriched errCiting "x" mEnriched2 (by decide) rfl⟩

/-- C7: enriching with the same error identifier a second time is a no-op
(`enrich_row` is idempotent on its success output); `issues` lists stay
duplicate-free; and each item's `issues` is only ever extended at the end, by
at most the single new identifier — append-only set semantics in insertion
order. -/
theorem claim_C7 :
    (∀ (m : RowModel) (e : ErrorObject) (err_id : String) (m' : RowModel),
      enrich_row m e err_id = Except.ok m' → enrich_row m' e err_id = Except.ok m') ∧
    (∀ (m : RowModel) (e : ErrorObject) (err_id : String) (m' : RowModel),
      AllNodup m.fields → enrich_row m e err_id = Except.ok m' → AllNodup m'.fields) ∧
    (∀ (m : RowModel) (e : ErrorObject) (err_id : String) (m' : RowModel),
      enrich_row m e err_id = Except.ok m' → IssuesExt err_id m.fields m'.fields) :=
  ⟨fun _ _ _ _ h => enrich_row_idem h,
   fun _ _ _ _ hA h => enrich_row_nodup hA h,
   fun _ _ _ _ h => (enrich_row_ext h).2.2⟩

theorem claim_C7_witness :
    enrich_row mEnriched errCiting "cits-0" = Except.ok mEnriched ∧
    AllNodup mEnriched.fields ∧
    IssuesExt "cits-0" (model_row_default citsEmptyRow 0).fields mEnriched.fields :=
  ⟨claim_C7.1 (model_row_default citsEmptyRow 0) errCiting "cits-0" mEnriched rfl,
   claim_C7.2.1 (model_row_default citsEmptyRow 0) errCiting "cits-0" mEnriched
     (by decide) rfl,
   claim_C7.2.2 (model_row_default citsEmptyRow 0) errCiting "cits-0" mEnriched rfl⟩

/-- C5: a `null` item-index list is treated as `[0]`: the error identifier is
attached to item 0 of the addressed field — the sentinel when the field is
empty, the first atomic item otherwise — and every other item of the field,
and every other field, is left unchanged. -/
theorem claim_C5 (m : RowModel) (msg lbl lvl err_id label : String) (k : Nat)
    (it0 : ItemRecord) (rest : List ItemRecord)
    (h : lookupF m.fields label = some (it0 :: rest)) :
    ∃ m', enrich_row m ⟨msg, lbl, lvl, [(k, [(label, none)])]⟩ err_id = Except.ok m' ∧
      m'.contains_issue = true ∧
      lookupF m'.fields label = some (addIssue it0 err_id :: rest) ∧
      err_id ∈ (addIssue it0 err_id).issues ∧
      ∀ l2, l2 ≠ label → lookupF m'.fields l2 = lookupF m.fields l2 := by
  have happ : applyIdx m.fields label 0 err_id =
      Except.ok (updateF m.fields label (addIssue it0 err_id :: rest)) := by
    unfold applyIdx
    rw [h]
    simp only [List.length_cons, Nat.zero_lt_succ, dif_pos]
    rfl
  refine ⟨RowModel.mk true m.row_idx
      (updateF m.fields label (addIssue it0 err_id :: rest)), ?_, rfl, ?_, ?_, ?_⟩
  · unfold enrich_row
    simp only [foldE, idxList, happ]
  · exact lookupF_updateF_self _ _ _ _ h
  · exact addIssue_mem it0 err_id
  · intro l2 hl2
    exact lookupF_updateF_other _ _ _ _ hl2

theorem claim_C5_witness :
    enrich_row (model_row_default citsEmptyRow 0) errCiting "cits-0" = Except.ok mEnriched ∧
    mEnriched.contains_issue = true ∧
    lookupF mEnriched.fields "citing_id" =
      some [addIssue ⟨"", "0-citing_id-empty", []⟩ "cits-0"] ∧
    "cits-0" ∈ (addIssue ⟨"", "0-citing_id-empty", []⟩ "cits-0").issues ∧
    lookupF mEnriched.fields "cited_id" =
      lookupF (model_row_default citsEmptyRow 0).fields "cited_id" := by
  obtain ⟨m', h1, h2, h3, h4, h5⟩ :=
    claim_C5 (model_row_default citsEmptyRow 0) "m" "l" "error" "cits-0" "citing_id" 0
      ⟨"", "0-citing_id-empty", []⟩ [] (by decide)
  have hrfl : enrich_row (model_row_default citsEmptyRow 0)
      ⟨"m", "l", "error", [(0, [("citing_id", none)])]⟩ "cits-0" =
      Except.ok mEnriched := rfl
  rw [hrfl] at h1
  injection h1 with h1
  subst h1
  exact ⟨hrfl, h2, h3, h4, h5 "cited_id" (by decide)⟩

/-- C2 counterexample: a report entry addressing row 5 of a 1-row model makes
the pass fail with the bare, uncoordinated `IndexError` of `out_data[5]` —
not with a coordinate-carrying `MappingError` (no such error exists in the
code). -/
theorem claim_C2_counterexample :
    map_errors_to_data ["#aabbcc"] [citsEmptyRow]
        [⟨"m", "l", "error", [(5, [("citing_id", none)])]⟩] =
      Except.error Err.indexError ∧
    Err.indexError.isMapping = false :=
  ⟨rfl, rfl⟩

/-- C2 (amended): a report entry whose row index is outside
`[0, len(models))`, or whose item index is outside the addressed field's item
list, makes the enrichment fail with Python's plain `IndexError` — an opaque
out-of-bounds fault that aborts the run rather than silently skipping; no
`MappingError` with coordinates is raised. -/
theorem claim_C2_amended :
    (∀ (msg lbl lvl : String) (fmap : List (String × Option (List Nat)))
      (colors : List String) (data : List Row) (i : Nat),
      colors ≠ [] → data.length ≤ i →
      map_errors_to_data colors data [⟨msg, lbl, lvl, [(i, fmap)]⟩] =
        Except.error Err.indexError) ∧
    (∀ (m : RowModel) (msg lbl lvl err_id label : String) (k j : Nat)
      (items : List ItemRecord),
      lookupF m.fields label = some items → items.length ≤ j →
      enrich_row m ⟨msg, lbl, lvl, [(k, [(label, some [j])])]⟩ err_id =
        Except.error Err.indexError) := by
  constructor
  · intro msg lbl lvl fmap colors data i hc hlen
    cases data with
    | nil => rfl
    | cons r0 rest =>
      unfold map_errors_to_data
      simp only
      cases colors with
      | nil => exact absurd rfl hc
      | cons c cs =>
        have hlt : ¬ (i < ((enumFrom 0 (r0 :: rest)).map
            (fun p => model_row_default p.2 p.1)).length) := by
          rw [out_data_length]
          simp only [List.length_cons] at hlen ⊢
          omega
        have hpe : processError
            ((enumFrom 0 (r0 :: rest)).map (fun p => model_row_default p.2 p.1), [], c :: cs)
            (tableType r0) 0 ⟨msg, lbl, lvl, [(i, fmap)]⟩ = Except.error Err.indexError := by
          unfold processError
          simp only [foldE]
          rw [dif_neg hlt]
        simp only [foldE]
        rw [hpe]
  · intro m msg lbl lvl err_id label k j items h hlen
    have happ : applyIdx m.fields label j err_id = Except.error Err.indexError := by
      unfold applyIdx
      rw [h]
      exact dif_neg (by omega)
    unfold enrich_row
    simp only [foldE, idxList, happ]

theorem claim_C2_amended_witness :
    map_errors_to_data ["#aabbcc"] [citsEmptyRow]
        [⟨"m", "l", "error", [(5, [("citing_id", some [0])])]⟩] =
      Except.error Err.indexError ∧
    enrich_row (model_row_default citsEmptyRow 0)
        ⟨"m", "l", "error", [(0, [("citing_id", some [3])])]⟩ "e" =
      Except.error Err.indexError :=
  ⟨claim_C2_amended.1 "m" "l" "error" [("citing_id", some [0])] ["#aabbcc"]
      [citsEmptyRow] 5 (by decide) (by decide),
   claim_C2_amended.2 (model_row_default citsEmptyRow 0) "m" "l" "error" "e"
      "citing_id" 0 3 [⟨"", "0-citing_id-empty", []⟩] (by decide) (by decide)⟩

/-- C3 counterexample: a present-but-empty `title` cell (`raw.title = some ""`)
does **not** flatten to the empty list and does **not** model to the sentinel
item: the scalar is kept, flattening to `[""]` and modeling to the ordinary
item `0-title-0`. -/
theorem claim_C3_counterexample :
    lookupF (mkMetadataRow { title := some "" } : MetadataRow).flat_serialise "title" =
      some [""] ∧
    some ([""] : List String) ≠ some ([] : List String) ∧
    lookupF (model_row_default (Row.meta (mkMetadataRow { title := some "" })) 0).fields
      "title" = some [⟨"", "0-title-0", []⟩] ∧
    (⟨"", "0-title-0", []⟩ : ItemRecord) ≠ ⟨"", "0-title-empty", []⟩ :=
  ⟨rfl, by decide, rfl, by decide⟩

/-- C3 (amended): for every scalar field of a metadata row (title, pub_date,
volume, issue, page, type), a **missing** raw value yields an absent scalar —
the flattened representation is `[]` and modeling produces the single
sentinel item — while a **present** value, including the empty string, is
kept: it flattens to the one-element list and models to a single ordinary
item. -/
theorem claim_C3_amended (raw : RawMetaRow) (r : Nat) :
    ((raw.title = none →
      lookupF (mkMetadataRow raw).flat_serialise "title" = some [] ∧
      lookupF (model_row_default (Row.meta (mkMetadataRow raw)) r).fields "title" =
        some [⟨"", itemIdStr r "title" "empty", []⟩]) ∧
     (∀ s, raw.title = some s →
      lookupF (mkMetadataRow raw).flat_serialise "title" = some [s] ∧
      lookupF (model_row_default (Row.meta (mkMetadataRow raw)) r).fields "title" =
        some [⟨s, itemIdStr r "title" (natStr 0), []⟩])) ∧
    ((raw.pub_date = none →
      lookupF (mkMetadataRow raw).flat_serialise "pub_date" = some [] ∧
      lookupF (model_row_default (Row.meta (mkMetadataRow raw)) r).fields "pub_date" =
        some [⟨"", itemIdStr r "pub_date" "empty", []⟩]) ∧
     (∀ s, raw.pub_date = some s →
      lookupF (mkMetadataRow raw).flat_serialise "pub_date" = some [s] ∧
      lookupF (model_row_default (Row.meta (mkMetadataRow raw)) r).fields "pub_date" =
        some [⟨s, itemIdStr r "pub_date" (natStr 0), []⟩])) ∧
    ((raw.volume = none →
      lookupF (mkMetadataRow raw).flat_serialise "volume" = some [] ∧
      lookupF (model_row_default (Row.meta (mkMetadataRow raw)) r).fields "volume" =
        some [⟨"", itemIdStr r "volume" "empty", []⟩]) ∧
     (∀ s, raw.volume = some s →
      lookupF (mkMetadataRow raw).flat_serialise "volume" = some [s] ∧
      lookupF (model_row_default (Row.meta (mkMetadataRow raw)) r).fields "volume" =
        some [⟨s, itemIdStr r "volume" (natStr 0), []⟩])) ∧
    ((raw.issue = none →
      lookupF (mkMetadataRow raw).flat_serialise "issue" = some [] ∧
      lookupF (model_row_default (Row.meta (mkMetadataRow raw)) r).fields "issue" =
        some [⟨"", itemIdStr r "issue" "empty", []⟩]) ∧
     (∀ s, raw.issue = some s →
      lookupF (mkMetadataRow raw).flat_serialise "issue" = some [s] ∧
      lookupF (model_row_default (Row.meta (mkMetadataRow raw)) r).fields "issue" =
        some [⟨s, itemIdStr r "issue" (natStr 0), []⟩])) ∧
    ((raw.page = none →
      lookupF (mkMetadataRow raw).flat_serialise "page" = some [] ∧
      lookupF (model_row_default (Row.meta (mkMetadataRow raw)) r).fields "page" =
        some [⟨"", itemIdStr r "page" "empty", []⟩]) ∧
     (∀ s, raw.page = some s →
      lookupF (mkMetadataRow raw).flat_serialise "page" = some [s] ∧
      lookupF (model_row_default (Row.meta (mkMetadataRow raw)) r).fields "page" =
        some [⟨s, itemIdStr r "page" (natStr 0), []⟩])) ∧
    ((raw.type = none →
      lookupF (mkMetadataRow raw).flat_serialise "type" = some [] ∧
      lookupF (model_row_default (Row.meta (mkMetadataRow raw)) r).fields "type" =
        some [⟨"", itemIdStr r "type" "empty", []⟩]) ∧
     (∀ s, raw.type = some s →
      lookupF (mkMetadataRow raw).flat_serialise "type" = some [s] ∧
      lookupF (model_row_default (Row.meta (mkMetadataRow raw)) r).fields "type" =
        some [⟨s, itemIdStr r "type" (natStr 0), []⟩])) := by
  refine ⟨⟨?_, ?_⟩, ⟨?_, ?_⟩, ⟨?_, ?_⟩, ⟨?_, ?_⟩, ⟨?_, ?_⟩, ⟨?_, ?_⟩⟩ <;>
  · intros
    constructor <;>
      simp [mkMetadataRow, MetadataRow.flat_serialise, Row.flat_serialise,
        model_row_default, model_field, enumFrom, optList, lookupF, *]

theorem claim_C3_amended_witness :
    (lookupF (mkMetadataRow ({} : RawMetaRow)).flat_serialise "title" = some [] ∧
      lookupF (model_row_default (Row.meta (mkMetadataRow ({} : RawMetaRow))) 0).fields
        "title" = some [⟨"", itemIdStr 0 "title" "empty", []⟩]) ∧
    (lookupF (mkMetadataRow ({ title := some "" } : RawMetaRow)).flat_serialise "title" =
        some [""] ∧
      lookupF (model_row_default (Row.meta (mkMetadataRow
          ({ title := some "" } : RawMetaRow))) 0).fields "title" =
        some [⟨"", itemIdStr 0 "title" (natStr 0), []⟩]) :=
  ⟨(claim_C3_amended {} 0).1.1 rfl,
   (claim_C3_amended { title := some "" } 0).1.2 "" rfl⟩

/-- C1: evaluation of the code at the failing input.  The report entry lists
`id` item 0 **only under row 0** and `title` item 0 **only under row 1**, yet
the mapper attaches `meta-0` to row 0's `title` item and row 1's `id` item as
well: `enrich_row` loops over every `(row_idx, field_info)` pair of the
error's position table without ever consulting the row key, so each
addressed row receives the union of all rows' field coordinates. -/
theorem claim_C1_code_behavior :
    probeItemIssues (map_errors_to_data ["#aabbcc"] [c1RowA, c1RowB] [c1Err]) 0 "title" 0 =
      some ["meta-0"] ∧
    probeItemIssues (map_errors_to_data ["#aabbcc"] [c1RowA, c1RowB] [c1Err]) 1 "id" 0 =
      some ["meta-0"] ∧
    probeItemIssues (map_errors_to_data ["#aabbcc"] [c1RowA, c1RowB] [c1Err]) 0 "id" 0 =
      some ["meta-0"] ∧
    probeItemIssues (map_errors_to_data ["#aabbcc"] [c1RowA, c1RowB] [c1Err]) 1 "title" 0 =
      some ["meta-0"] := by
  decide

/-! ### Item-id layout of modelled rows (toward C6) -/

theorem lookupF_map_of_mem {A B : Type} (g : String → A → B) :
    ∀ {l : List (String × A)} {label : String} {v : A},
      (l.map Prod.fst).Nodup → (label, v) ∈ l →
      lookupF (l.map (fun p => (p.1, g p.1 p.2))) label = some (g label v) := by
  intro l
  induction l with
  | nil => intro label v _ hm; cases hm
  | cons p t ih =>
    intro label v hnd hm
    simp only [List.map_cons, List.nodup_cons] at hnd
    rcases List.mem_cons.1 hm with h1 | h1
    · rw [← h1]
      simp [lookupF]
    · have hne : p.1 ≠ label := by
        intro he
        exact hnd.1 (he ▸ List.mem_map.2 ⟨(label, v), h1, rfl⟩)
      simp only [List.map_cons, lookupF, hne, if_false]
      exact ih hnd.2 h1

theorem model_field_length {r : Nat} {label : String} {vals : List String}
    (h : vals ≠ []) : (model_field r label vals).length = vals.length := by
  cases vals with
  | nil => exact absurd rfl h
  | cons v vt => simp [model_field, enumFrom_length]

theorem model_field_get? {r : Nat} {label : String} {vals : List String} {i : Nat}
    {v : String} (h : vals.get? i = some v) :
    (model_field r label vals).get? i = some ⟨v, itemIdStr r label (natStr i), []⟩ := by
  cases vals with
  | nil => cases h
  | cons v0 vt =>
    simp only [model_field, List.get?_map, enumFrom_get?, h, Option.map_some']
    simp

theorem fieldIds_shape {r : Nat} {label : String} {vals : List String} :
    ∀ s ∈ fieldIds r label vals, ∃ t, s = itemIdStr r label t := by
  intro s hs
  cases vals with
  | nil =>
    simp only [fieldIds, model_field, List.map_cons, List.map_nil,
      List.mem_singleton] at hs
    exact ⟨"empty", hs⟩
  | cons v vt =>
    simp only [fieldIds, model_field, List.map_map, List.mem_map] at hs
    obtain ⟨p, -, hp⟩ := hs
    exact ⟨natStr p.1, hp.symm⟩

theorem enumFrom_map_fst {α : Type} (l : List α) (k : Nat) :
    (enumFrom k l).map Prod.fst = List.range' k l.length := by
  have := enumFrom_map_fstF (fun i => i) l k
  simpa using this

theorem fieldIds_nodup {r : Nat} {label : String} {vals : List String}
    (hl : '-' ∉ label.data) : (fieldIds r label vals).Nodup := by
  cases vals with
  | nil => simp [fieldIds, model_field]
  | cons v vt =>
    have hshape : fieldIds r label (v :: vt) =
        ((enumFrom 0 (v :: vt)).map Prod.fst).map
          (fun i => itemIdStr r label (natStr i)) := by
      simp [fieldIds, model_field, List.map_map]
    rw [hshape, enumFrom_map_fst]
    refine List.Nodup.map ?_ (List.nodup_range' _ _)
    intro i j hij
    exact natStr_inj i j (itemIdStr_inj hl hl hij).2

theorem flatMap_map' {A B C : Type} (f : A → B) (g : B → List C) :
    ∀ (l : List A), (l.map f).flatMap g = l.flatMap (fun x => g (f x)) := by
  intro l
  induction l with
  | nil => rfl
  | cons a t ih => simp [List.flatMap_cons, ih]

theorem nodup_flat_ids (r : Nat) :
    ∀ (flat : List (String × List String)),
      (flat.map Prod.fst).Nodup → (∀ p ∈ flat, '-' ∉ p.1.data) →
      (flat.flatMap (fun p => fieldIds r p.1 p.2)).Nodup := by
  intro flat
  induction flat with
  | nil => intro _ _; simp
  | cons p t ih =>
    intro hnd hdash
    simp only [List.map_cons, List.nodup_cons] at hnd
    simp only [List.flatMap_cons]
    rw [List.nodup_append]
    refine ⟨fieldIds_nodup (hdash p (List.mem_cons_self _ _)),
      ih hnd.2 (fun q hq => hdash q (List.mem_cons_of_mem _ hq)), ?_⟩
    intro s hs1 hs2
    obtain ⟨t1, ht1⟩ := fieldIds_shape s hs1
    obtain ⟨q, hq, hsq⟩ := List.mem_flatMap.1 hs2
    obtain ⟨t2, ht2⟩ := fieldIds_shape s hsq
    have heq : p.1 = q.1 :=
      (itemIdStr_inj (hdash p (List.mem_cons_self _ _))
        (hdash q (List.mem_cons_of_mem _ hq)) (ht1 ▸ ht2)).1
    exact hnd.1 (heq ▸ List.mem_map.2 ⟨q, hq, rfl⟩)

theorem allItemIds_model (row : Row) (r : Nat) :
    allItemIds (model_row_default row r) =
      (Row.flat_serialise row).flatMap (fun p => fieldIds r p.1 p.2) := by
  unfold allItemIds model_row_default
  rw [flatMap_map']
  rfl

theorem flat_keys_nodup (row : Row) :
    ((Row.flat_serialise row).map Prod.fst).Nodup := by
  cases row with
  | meta mr => exact (by decide :
      (["id", "title", "author", "pub_date", "venue", "volume", "issue", "page",
        "type", "publisher", "editor"] : List String).Nodup)
  | cits cr => exact (by decide :
      (["citing_id", "citing_publication_date", "cited_id",
        "cited_publication_date"] : List String).Nodup)

theorem flat_keys_nodash (row : Row) :
    ∀ p ∈ Row.flat_serialise row, '-' ∉ p.1.data := by
  intro p hp
  have hk : p.1 ∈ (Row.flat_serialise row).map Prod.fst := List.mem_map.2 ⟨p, hp, rfl⟩
  cases row with
  | meta mr =>
    have hall : ∀ k ∈ (["id", "title", "author", "pub_date", "venue", "volume",
        "issue", "page", "type", "publisher", "editor"] : List String),
        '-' ∉ k.data := by decide
    exact hall p.1 hk
  | cits cr =>
    have hall : ∀ k ∈ (["citing_id", "citing_publication_date", "cited_id",
        "cited_publication_date"] : List String), '-' ∉ k.data := by decide
    exact hall p.1 hk

/-- C6: modeling a typed row produces, for each flattened field, exactly one
item per value in order (with empty issues), or exactly one sentinel with
`raw = ""` when the flattened list is empty; item ids follow the
`"\x7browIndex\x7d-\x7bfieldLabel\x7d-\x7bindex\x7d"` / `"...-empty"` format and are unique within
the row across all fields. -/
theorem claim_C6 (row : Row) (r : Nat) :
    ((model_row_default row r).fields.map Prod.fst =
      (Row.flat_serialise row).map Prod.fst) ∧
    (∀ label vals, (label, vals) ∈ Row.flat_serialise row →
      ∃ items, lookupF (model_row_default row r).fields label = some items ∧
        (vals = [] → items = [⟨"", natStr r ++ "-" ++ label ++ "-" ++ "empty", []⟩]) ∧
        (vals ≠ [] → items.length = vals.length) ∧
        (∀ i v, vals.get? i = some v →
          items.get? i = some ⟨v, natStr r ++ "-" ++ label ++ "-" ++ natStr i, []⟩)) ∧
    (allItemIds (model_row_default row r)).Nodup := by
  refine ⟨?_, ?_, ?_⟩
  · simp [model_row_default, List.map_map]
  · intro label vals hmem
    refine ⟨model_field r label vals, ?_, ?_, ?_, ?_⟩
    · exact lookupF_map_of_mem _ (flat_keys_nodup row) hmem
    · intro h; subst h; rfl
    · intro h; exact model_field_length h
    · intro i v h; exact model_field_get? h
  · rw [allItemIds_model]
    exact nodup_flat_ids r _ (flat_keys_nodup row) (flat_keys_nodash row)

theorem claim_C6_witness :
    (model_row_default c6Row 4).fields.map Prod.fst =
      (Row.flat_serialise c6Row).map Prod.fst ∧
    ([(⟨"a", "4-id-0", []⟩ : ItemRecord), ⟨"b", "4-id-1", []⟩] : List ItemRecord).get? 1 =
      some ⟨"b", natStr 4 ++ "-" ++ "id" ++ "-" ++ natStr 1, []⟩ ∧
    (allItemIds (model_row_default c6Row 4)).Nodup := by
  obtain ⟨h1, h2, h3⟩ := claim_C6 c6Row 4
  obtain ⟨items, hl, -, -, hget⟩ := h2 "id" ["a", "b"] (by decide)
  have hl2 : lookupF (model_row_default c6Row 4).fields "id" =
      some [⟨"a", "4-id-0", []⟩, ⟨"b", "4-id-1", []⟩] := by decide
  rw [hl2] at hl
  injection hl with hl
  subst hl
  exact ⟨h1, hget 1 "b" rfl, h3⟩

/-! ### Soundness of the identifier scan (toward C8) -/

theorem lastIdxOf_get? {c : Char} :
    ∀ {l : List Char} {p : Nat}, lastIdxOf c l = some p → l.get? p = some c := by
  intro l
  induction l with
  | nil => intro p h; cases h
  | cons x xs ih =>
    intro p h
    cases hl : lastIdxOf c xs with
    | some q =>
      simp only [lastIdxOf, hl] at h
      injection h with h
      subst h
      simpa using ih hl
    | none =>
      simp only [lastIdxOf, hl] at h
      split at h
      · rename_i hx
        injection h with h
        subst h
        simp [hx]
      · cases h

theorem tryMatch_ok {schemes : List String} {cs : List Char} {len : Nat}
    (h : tryMatch schemes cs = some len) :
    ∃ sch restm c,
      sch ∈ schemes ∧ restm ≠ [] ∧ (∀ ch ∈ restm, isWS ch = false) ∧
      len ≤ cs.length ∧
      cs.take len = sch.data ++ ':' :: restm ∧
      cs.get? len = some c ∧ (isWS c = true ∨ c = ']') := by
  unfold tryMatch at h
  cases hfind : schemes.find? (fun s => List.isPrefixOf (s.data ++ [':']) cs) with
  | none => rw [hfind] at h; cases h
  | some s =>
    rw [hfind] at h
    simp only at h
    have hmem : s ∈ schemes := List.mem_of_find?_eq_some hfind
    have hfs := @List.find?_some String
      (fun s => List.isPrefixOf (s.data ++ [':']) cs) s schemes hfind
    have hpre : (s.data ++ [':']) <+: cs :=
      List.isPrefixOf_iff_prefix.1 (by simpa using hfs)
    obtain ⟨tail, htail⟩ := hpre
    have hrest : cs.drop (s.data ++ [':']).length = tail := by
      rw [← htail]
      exact List.drop_left _ _
    rw [hrest] at h
    set run := tail.takeWhile (fun c => !isWS c) with hrun_def
    set dw := tail.dropWhile (fun c => !isWS c) with hdw_def
    have htl : run ++ dw = tail := List.takeWhile_append_dropWhile _ _
    have hcslen : cs.length = (s.data ++ [':']).length + tail.length := by
      rw [← htail, List.length_append]
    have hlen_run : run.length + dw.length = tail.length := by
      rw [← htl, List.length_append]
    split at h
    · cases h
    · rename_i hne
      have hrun_ne : run ≠ [] := by
        intro hx
        exact hne (List.isEmpty_iff.2 hx)
      have hrun_ws : ∀ ch ∈ run, isWS ch = false := by
        intro ch hch
        rw [hrun_def] at hch
        have h2 := List.mem_takeWhile_imp hch
        simpa using h2
      split at h
      · rename_i hlt
        injection h with h
        subst h
        cases hdw2 : dw with
        | nil =>
          rw [hdw2] at hlen_run
          simp at hlen_run
          omega
        | cons d dtl =>
          refine ⟨s, run, d, hmem, hrun_ne, hrun_ws, by omega, ?_, ?_, ?_⟩
          · rw [← htail, List.take_append]
            have htk : tail.take run.length = run := by
              conv_lhs => rw [← htl]
              exact List.take_left _ _
            rw [htk]
            simp
          · rw [← htail, List.get?_append_right (by omega)]
            have harith : (s.data ++ [':']).length + run.length -
                (s.data ++ [':']).length = run.length := by omega
            rw [harith]
            conv_lhs => rw [← htl]
            rw [List.get?_append_right (Nat.le_refl _)]
            simp [hdw2]
          · left
            have h2 := List.head?_dropWhile_not (fun c => !isWS c) tail
            rw [← hdw_def, hdw2] at h2
            simp only [List.head?_cons] at h2
            simpa using h2
      · rename_i hnlt
        have hdw0 : dw = [] := by
          have hlen0 : dw.length = 0 := by omega
          exact List.eq_nil_of_length_eq_zero hlen0
        have hrun_eq : run = tail := by
          rw [← htl, hdw0, List.append_nil]
        cases hli : lastIdxOf ']' run with
        | none => simp only [hli] at h; cases h
        | some p =>
          simp only [hli] at h
          split at h
          · rename_i hp1
            injection h with h
            subst h
            have hgetp : tail.get? p = some ']' := by
              have h2 := lastIdxOf_get? hli
              rwa [hrun_eq] at h2
            have hplt : p < tail.length := by
              obtain ⟨hlt2, -⟩ := List.get?_eq_some.1 hgetp
              exact hlt2
            refine ⟨s, tail.take p, ']', hmem, ?_, ?_, by omega, ?_, ?_, Or.inr rfl⟩
            · apply List.ne_nil_of_length_pos
              rw [List.length_take]
              omega
            · intro ch hch
              refine hrun_ws ch ?_
              rw [hrun_eq]
              exact List.take_subset _ _ hch
            · rw [← htail, List.take_append]
              simp
            · rw [← htail, List.get?_append_right (by omega)]
              have harith : (s.data ++ [':']).length + p -
                  (s.data ++ [':']).length = p := by omega
              rw [harith]
              exact hgetp
          · cases h

theorem scanIdsF_sound {schemes : List String} :
    ∀ (fuel : Nat) (cs : List Char), ∀ m ∈ scanIdsF schemes fuel cs,
      ∃ i sch restm c,
        sch ∈ schemes ∧ restm ≠ [] ∧ (∀ ch ∈ restm, isWS ch = false) ∧
        m = sch.data ++ ':' :: restm ∧
        (cs.drop i).take m.length = m ∧
        cs.get? (i + m.length) = some c ∧ (isWS c = true ∨ c = ']') := by
  intro fuel
  induction fuel with
  | zero => intro cs m hm; cases hm
  | succ f ih =>
    intro cs m hm
    cases cs with
    | nil => cases hm
    | cons c0 rest =>
      simp only [scanIdsF] at hm
      cases htm : tryMatch schemes (c0 :: rest) with
      | some len =>
        rw [htm] at hm
        rcases List.mem_cons.1 hm with h1 | h1
        · subst h1
          obtain ⟨sch, restm, c, hsch, hrne, hrws, hle, htake, hget, hcond⟩ :=
            tryMatch_ok htm
          have hmlen : ((c0 :: rest).take len).length = len := by
            rw [List.length_take]
            omega
          refine ⟨0, sch, restm, c, hsch, hrne, hrws, htake, ?_, ?_, hcond⟩
          · rw [List.drop_zero, hmlen]
          · rw [Nat.zero_add, hmlen]
            exact hget
        · obtain ⟨i, sch, restm, c, hsch, hrne, hrws, hshape, htake, hget, hcond⟩ :=
            ih _ m h1
          refine ⟨len + i, sch, restm, c, hsch, hrne, hrws, hshape, ?_, ?_, hcond⟩
          · rw [← List.drop_drop]
            exact htake
          · rw [List.get?_drop] at hget
            rw [Nat.add_assoc]
            exact hget
      | none =>
        rw [htm] at hm
        obtain ⟨i, sch, restm, c, hsch, hrne, hrws, hshape, htake, hget, hcond⟩ :=
          ih rest m hm
        refine ⟨i + 1, sch, restm, c, hsch, hrne, hrws, hshape, ?_, ?_, hcond⟩
        · rw [List.drop_succ_cons]
          exact htake
        · have harith : i + 1 + m.length = (i + m.length) + 1 := by omega
          rw [harith, List.get?_cons_succ]
          exact hget

theorem extractIds_sound :
    ∀ (raw s : String), s ∈ extractIds agentSchemes raw →
      specIdForm agentSchemes s = true ∧ occursBefore raw s = true := by
  intro raw s hs
  simp only [extractIds, scanIds, List.mem_map] at hs
  obtain ⟨m, hm, hsm⟩ := hs
  subst hsm
  obtain ⟨i, sch, restm, c, hsch, hrne, hrws, hshape, htake, hget, hcond⟩ :=
    scanIdsF_sound _ _ m hm
  have hsdata : (String.mk m).data = m := rfl
  constructor
  · simp only [specIdForm, hsdata, Bool.and_eq_true, List.any_eq_true]
    refine ⟨⟨sch, hsch, ?_, ?_⟩, ?_⟩
    · apply List.isPrefixOf_iff_prefix.2
      rw [hshape]
      exact ⟨restm, by simp⟩
    · rw [decide_eq_true_eq, hshape]
      simp only [List.length_append, List.length_cons]
      have := List.length_pos_of_ne_nil hrne
      omega
    · rw [List.all_eq_true]
      intro ch hch
      rw [hshape] at hch
      rcases List.mem_append.1 hch with h1 | h1
      · have hall : ∀ sc ∈ agentSchemes, ∀ ch ∈ sc.data, (!isWS ch) = true := by decide
        exact hall sch hsch ch h1
      · rcases List.mem_cons.1 h1 with h2 | h2
        · subst h2
          decide
        · simp [hrws ch h2]
  · simp only [occursBefore, List.any_eq_true]
    have hmlen_pos : 0 < m.length := by
      rw [hshape]
      simp
    have hilt : i < raw.data.length := by
      obtain ⟨hlt, -⟩ := List.get?_eq_some.1 hget
      omega
    refine ⟨i, List.mem_range.2 hilt, ?_⟩
    rw [Bool.and_eq_true]
    refine ⟨by rw [decide_eq_true_eq]; exact htake, ?_⟩
    rw [hget]
    rcases hcond with h1 | h1
    · simp [h1]
    · simp [h1]

/-- C8 counterexample: on `"orcid:viaf:1 "` the substring `"viaf:1"` matches
`viaf:(non-whitespace)` and occurs immediately before a whitespace character,
yet the extractor does not collect it — `finditer`'s matches are
non-overlapping, and the earlier greedy match `"orcid:viaf:1"` swallows it. -/
theorem claim_C8_counterexample :
    specIdForm agentSchemes "viaf:1" = true ∧
    occursBefore "orcid:viaf:1 " "viaf:1" = true ∧
    "viaf:1" ∉ extractIds agentSchemes "orcid:viaf:1 " ∧
    extractIds agentSchemes "orcid:viaf:1 " = ["orcid:viaf:1"] := by
  decide

/-- C8 (amended): item extraction scans left to right collecting the regex's
non-overlapping matches (greedy `\S+` after an allowed scheme and `:`,
backing off to end before a `']'` only when the run reaches the end of the
string); every collected identifier has the form `scheme:non-whitespace`
with the scheme allowed and occurs in the raw string immediately before a
whitespace character or a closing bracket — but not every such substring is
collected.  The name is the text before the first `'['` (or the whole
string), stripped; on the spec's example the extractor yields name
`"Smith, J."` and identifiers `["orcid:0000-0001", "viaf:123"]` in order. -/
theorem claim_C8_amended :
    (mkAgentItem "Smith, J. [orcid:0000-0001 viaf:123]").name = "Smith, J." ∧
    (mkAgentItem "Smith, J. [orcid:0000-0001 viaf:123]").ids =
      ["orcid:0000-0001", "viaf:123"] ∧
    (∀ raw s, s ∈ extractIds agentSchemes raw →
      specIdForm agentSchemes s = true ∧ occursBefore raw s = true) :=
  ⟨by decide, by decide, extractIds_sound⟩

theorem claim_C8_amended_witness :
    specIdForm agentSchemes "orcid:0000-0001" = true ∧
    occursBefore "Smith, J. [orcid:0000-0001 viaf:123]" "orcid:0000-0001" = true :=
  claim_C8_amended.2.2 "Smith, J. [orcid:0000-0001 viaf:123]" "orcid:0000-0001"
    (by decide)

end OCV
